import Mathlib

/-!
The JavaScript bundler of `doc-new/themes/docuapi/bundler.go`

A shallow embedding of `jsBundler` (`newBundle`, `handleFile`,
`getOverrideIfFound`, `extractRequiredLibs`) together with the parts of the Go
standard library it calls (`strings.TrimSpace`, `strings.HasPrefix`,
`strings.TrimPrefix`, `bufio.Scanner` with `bufio.ScanLines`, and the Unix
versions of `filepath.Clean`, `filepath.Join`, `filepath.Dir`).

Texts and paths are lists of characters.  The file system is a finite
association list from path to file content, the override store
(`map[string][]byte`) a finite association list from relative path to content.
-/

namespace Bundler

/-! ## Strings -/

/-- Go `unicode.IsSpace`: the code points of the Unicode `White_Space` property. -/
def isSpace (c : Char) : Bool :=
  let n := c.toNat
  (9 ≤ n && n ≤ 13) || n == 32 || n == 133 || n == 160 || n == 5760 ||
  (8192 ≤ n && n ≤ 8202) || n == 8232 || n == 8233 || n == 8239 || n == 8287 || n == 12288

/-- Go `strings.TrimLeftFunc(s, unicode.IsSpace)`. -/
def trimLeft : List Char → List Char
  | [] => []
  | c :: cs => if isSpace c then trimLeft cs else c :: cs

/-- Go `strings.TrimSpace`: leading and trailing white space removed. -/
def trimSpace (s : List Char) : List Char :=
  (trimLeft (trimLeft s).reverse).reverse

/-- Go `strings.HasPrefix(s, prefix)`. -/
def hasPrefix : List Char → List Char → Bool
  | _, [] => true
  | [], _ :: _ => false
  | c :: cs, p :: ps => c == p && hasPrefix cs ps

/-- Go `strings.TrimPrefix(s, prefix)`: `s` without the leading `prefix`, or `s`
unchanged when it does not start with `prefix`. -/
def trimPrefix (s pre : List Char) : List Char :=
  if hasPrefix s pre then s.drop pre.length else s

/-! ## Line scanning -/

/-- Go `bufio.MaxScanTokenSize`, the size of the largest buffer a `bufio.Scanner`
created by `bufio.NewScanner` allocates. -/
def maxScanTokenSize : Nat := 64 * 1024

/-- The `dropCR` helper of `bufio.ScanLines`: one trailing carriage return is dropped. -/
def dropCR (line : List Char) : List Char :=
  match line.reverse with
  | '\r' :: rest => rest.reverse
  | _ => line

/-- The tokens `scanner.Scan()` / `scanner.Text()` deliver with the `bufio.ScanLines`
split function.  `cur` holds the characters of the line being read (latest first)
and `n` their size in bytes.  A line ends at a newline; a non-empty last line without
a newline is a token too.  A line that does not fit into the scanner's buffer
(`n` would reach `maxScanTokenSize`) makes `Scan` return false with `ErrTooLong`;
the loop of `extractRequiredLibs` then ends, and the error is not looked at. -/
def scanLinesAux : List Char → List Char → Nat → List (List Char)
  | [], cur, _ => if cur.isEmpty then [] else [dropCR cur.reverse]
  | c :: cs, cur, n =>
    if c = '\n' then dropCR cur.reverse :: scanLinesAux cs [] 0
    else if maxScanTokenSize ≤ n + c.utf8Size then []
    else scanLinesAux cs (c :: cur) (n + c.utf8Size)

/-- All tokens of a `bufio.NewScanner(r)` over the text `r`. -/
def scanLines (text : List Char) : List (List Char) :=
  scanLinesAux text [] 0

/-- The constant `require` of `extractRequiredLibs`. -/
def requirePrefix : List Char := "//= require".toList

/-- The body of the scanning loop of `extractRequiredLibs` for one token. -/
def requiredLibOfLine (line : List Char) : Option (List Char) :=
  let t := trimSpace line
  if hasPrefix t requirePrefix then some (trimSpace (t.drop requirePrefix.length)) else none

/-- Go `jsBundler.extractRequiredLibs`. -/
def extractRequiredLibs (text : List Char) : List (List Char) :=
  (scanLines text).filterMap requiredLibOfLine

/-! ## Paths (Unix `path/filepath`) -/

/-- The components of a path: the pieces between separators. -/
def splitSep : List Char → List (List Char)
  | [] => [[]]
  | c :: cs =>
    if c = '/' then [] :: splitSep cs
    else match splitSep cs with
      | [] => [[c]]
      | w :: ws => (c :: w) :: ws

/-- The component loop of `filepath.Clean`; `out` is the output so far, last
component first.  Empty components and `.` are skipped, `..` removes the
component before it, or is kept when there is none to remove and the path is
not rooted. -/
def cleanComps (rooted : Bool) : List (List Char) → List (List Char) → List (List Char)
  | [], out => out
  | comp :: rest, out =>
    if comp = [] ∨ comp = ['.'] then cleanComps rooted rest out
    else if comp = ['.', '.'] then
      match out with
      | [] => if rooted then cleanComps rooted rest [] else cleanComps rooted rest [comp]
      | top :: below =>
        if top = ['.', '.'] then cleanComps rooted rest (comp :: out)
        else cleanComps rooted rest below
    else cleanComps rooted rest (comp :: out)

/-- Components joined with the separator. -/
def joinSep : List (List Char) → List Char
  | [] => []
  | [w] => w
  | w :: w' :: ws => w ++ '/' :: joinSep (w' :: ws)

/-- Go `filepath.Clean` (Unix). -/
def clean (path : List Char) : List Char :=
  match path with
  | [] => ['.']
  | c :: _ =>
    let rooted := c = '/'
    let out := (cleanComps rooted (splitSep path) []).reverse
    if rooted then '/' :: joinSep out
    else if out.isEmpty then ['.'] else joinSep out

/-- Go `filepath.Join(a, b)`: empty elements are ignored, the rest is joined with
the separator and cleaned. -/
def join (a b : List Char) : List Char :=
  if a ≠ [] then clean (a ++ '/' :: b)
  else if b ≠ [] then clean b
  else []

/-- The part of a path up to and including its last separator. -/
def upToLastSep (path : List Char) : List Char :=
  (path.reverse.dropWhile (fun c => c ≠ '/')).reverse

/-- Go `filepath.Dir` (Unix). -/
def dir (path : List Char) : List Char :=
  clean (upToLastSep path)

/-! ## The bundler -/

/-- A finite map from names to contents: the files of the file system by path, or
the `overrides` map of the bundler by relative path. -/
abbrev Files := List (List Char × List Char)

/-- Lookup in a finite map; `none` is Go's `nil` slice, respectively a failed open. -/
def find : Files → List Char → Option (List Char)
  | [], _ => none
  | (k, v) :: rest, key => if k = key then some v else find rest key

/-- The fields of `jsBundler` that stay fixed during bundling (`src`, `overrides`)
and the file system that `os.Open` and `ioutil.ReadFile` read. -/
structure Env where
  src : List Char
  overrides : Files
  files : Files

/-- The per-bundle fields of `jsBundler`: `seen` (the keys mapped to true) and `buff`. -/
structure JsBundler where
  seen : List (List Char)
  buff : List Char
deriving DecidableEq

/-- What a call returns: the Go `error` (`none` is `nil`; an error names the file that
could not be opened) and the receiver as the call leaves it.  `fuelOut` is the
recursion budget of the model running out. -/
inductive Outcome (σ : Type) where
  | fuelOut : Outcome σ
  | ret (err : Option (List Char)) (j : σ) : Outcome σ
deriving DecidableEq

/-- Go `jsBundler.getOverrideIfFound`. -/
def getOverrideIfFound (E : Env) (filename : List Char) : Option (List Char) :=
  let libPath := trimPrefix filename E.src
  let libPath := trimPrefix libPath ['/']
  find E.overrides libPath

/-- The first part of `handleFile`: the requires of `filename`, taken from the
override when there is one and from the opened file otherwise; `none` when
`os.Open` fails. -/
def requiredLibsOf (E : Env) (filename : List Char) : Option (List (List Char)) :=
  match getOverrideIfFound E filename with
  | some overridenContent => some (extractRequiredLibs overridenContent)
  | none =>
    match find E.files filename with
    | none => none
    | some file => some (extractRequiredLibs file)

/-- The content written for `libFilename` in the loop of `handleFile`: the override,
or else what `ioutil.ReadFile` returns. -/
def contentOf (E : Env) (libFilename : List Char) : Option (List Char) :=
  match getOverrideIfFound E libFilename with
  | some content => some content
  | none => find E.files libFilename

/-- The suffix appended to a required name. -/
def jsExt : List Char := ".js".toList

/-- The loop `for _, lib := range libs` of `handleFile`; `handle` is the recursive call. -/
def handleLibs (E : Env) (handle : List Char → JsBundler → Outcome JsBundler)
    (currDir : List Char) : List (List Char) → JsBundler → Outcome JsBundler
  | [], j => .ret none j
  | lib :: libs, j =>
    if lib ∈ j.seen then handleLibs E handle currDir libs j
    else
      let libFilename := join currDir (lib ++ jsExt)
      match handle libFilename ⟨lib :: j.seen, j.buff⟩ with
      | .fuelOut => .fuelOut
      | .ret (some err) j1 => .ret (some err) j1
      | .ret none j1 =>
        match contentOf E libFilename with
        | none => .ret (some libFilename) j1
        | some content => handleLibs E handle currDir libs ⟨j1.seen, j1.buff ++ content⟩

/-- Go `jsBundler.handleFile`, with a budget for the depth of the recursion. -/
def handleFile (E : Env) : Nat → List Char → JsBundler → Outcome JsBundler
  | 0, _, _ => .fuelOut
  | fuel + 1, filename, j =>
    match requiredLibsOf E filename with
    | none => .ret (some filename) j
    | some libs => handleLibs E (handleFile E fuel) (dir filename) libs j

/-- Every required name written in an override or in a file. -/
def allLibs (E : Env) : List (List Char) :=
  (E.overrides ++ E.files).flatMap (fun kv => extractRequiredLibs kv.2)

/-- A recursion budget that `handleFile` never uses up (see `handleFile_fuelBound`). -/
def fuelBound (E : Env) : Nat := (allLibs E).length + 1

/-- The number of required names of the environment that are not yet in `seen`. -/
def unseenCount (E : Env) (seen : List (List Char)) : Nat :=
  ((allLibs E).toFinset \ seen.toFinset).card

/-- The banner `newBundle` writes first. -/
def banner : List Char :=
  "\n\n// From bep\x27s Poor Man\x27s JS bundler // \x2d\x2d\x2d\x2d\n".toList

/-- Go `jsBundler.newBundle`: `seen` is made anew, `buff` is reset, the banner is
written, and the entry file is handled. -/
def newBundle (E : Env) (j : JsBundler) (filename : List Char) : Outcome JsBundler :=
  let j : JsBundler := ⟨[], j.buff⟩
  let j : JsBundler := ⟨j.seen, []⟩
  let j : JsBundler := ⟨j.seen, j.buff ++ banner⟩
  handleFile E (fuelBound E) filename j

/-! ## The bundler with a log of what it writes -/

/-- The `seen` set together with a log of the writes to `buff`: the file written
and its content, in the order of writing. -/
structure Trace where
  seen : List (List Char)
  emitted : List (List Char × List Char)
deriving DecidableEq

/-- The loop of `handleFile`, logging each write instead of appending to `buff`. -/
def handleLibsLog (E : Env) (handle : List Char → Trace → Outcome Trace)
    (currDir : List Char) : List (List Char) → Trace → Outcome Trace
  | [], t => .ret none t
  | lib :: libs, t =>
    if lib ∈ t.seen then handleLibsLog E handle currDir libs t
    else
      let libFilename := join currDir (lib ++ jsExt)
      match handle libFilename ⟨lib :: t.seen, t.emitted⟩ with
      | .fuelOut => .fuelOut
      | .ret (some err) t1 => .ret (some err) t1
      | .ret none t1 =>
        match contentOf E libFilename with
        | none => .ret (some libFilename) t1
        | some content =>
          handleLibsLog E handle currDir libs ⟨t1.seen, t1.emitted ++ [(libFilename, content)]⟩

/-- The function `handleFile`, logging each write instead of appending to `buff`. -/
def handleFileLog (E : Env) : Nat → List Char → Trace → Outcome Trace
  | 0, _, _ => .fuelOut
  | fuel + 1, filename, t =>
    match requiredLibsOf E filename with
    | none => .ret (some filename) t
    | some libs => handleLibsLog E (handleFileLog E fuel) (dir filename) libs t

/-- The function `newBundle`, logging each write after the banner. -/
def newBundleLog (E : Env) (filename : List Char) : Outcome Trace :=
  handleFileLog E (fuelBound E) filename ⟨[], []⟩

/-- The bytes a log stands for. -/
def logBytes (emitted : List (List Char × List Char)) : List Char :=
  (emitted.map Prod.snd).flatten

/-- The bundler state a trace stands for when the buffer held `buff` before the
logged writes. -/
def Trace.toBundler (buff : List Char) (t : Trace) : JsBundler :=
  ⟨t.seen, buff ++ logBytes t.emitted⟩

/-- An outcome over traces read as an outcome over bundler states. -/
def Outcome.toBundler (buff : List Char) : Outcome Trace → Outcome JsBundler
  | .fuelOut => .fuelOut
  | .ret err t => .ret err (t.toBundler buff)

/-- The receiver after a call: the state the call returns, or the state before it
when the model's budget ran out. -/
def receiverAfter (j : JsBundler) : Outcome JsBundler → JsBundler
  | .fuelOut => j
  | .ret _ j' => j'

/-- Go `strings.HasSuffix(s, suffix)`. -/
def hasSuffix (s suffix : List Char) : Bool :=
  hasPrefix s.reverse suffix.reverse

/-- The loop over the directory entries in `bundle`, without minification: a name
that does not end in `.js` is passed over; for any other name the file of that name
in `src` is bundled and the buffer is written to the file of that name in `dst`.
The writes are collected in `out`; an error of `newBundle` ends the loop. -/
def bundleLoop (E : Env) (dst : List Char) :
    List (List Char) → JsBundler → Files → Outcome (JsBundler × Files)
  | [], j, out => .ret none (j, out)
  | name :: names, j, out =>
    if hasSuffix name jsExt then
      match newBundle E j (join E.src name) with
      | .fuelOut => .fuelOut
      | .ret (some err) j1 => .ret (some err) (j1, out)
      | .ret none j1 => bundleLoop E dst names j1 (out ++ [(join dst name, j1.buff)])
    else bundleLoop E dst names j out

/-- The error and the written files of an outcome of `bundleLoop`. -/
def writtenFiles : Outcome (JsBundler × Files) → Outcome Files
  | .fuelOut => .fuelOut
  | .ret err r => .ret err r.2

/-! ## The requirement graph -/

/-- The files the directives of `f` name: each required name, with `.js` appended,
resolved against the directory of `f`. -/
def depFiles (E : Env) (f : List Char) : List (List Char) :=
  match requiredLibsOf E f with
  | none => []
  | some libs => libs.map (fun lib => join (dir f) (lib ++ jsExt))

/-- The file `f` has a directive that names the file `g`. -/
def Requires (E : Env) (f g : List Char) : Prop := g ∈ depFiles E f

/-- The position of a file in a list of files, used as a rank. -/
def rankIn (order : List (List Char)) (f : List Char) : Nat := order.indexOf f

/-- Every directive of every file of the file system names a file of lower rank:
a check that the requirement graph of an environment without overrides is acyclic. -/
def ranksDecrease (E : Env) (order : List (List Char)) : Prop :=
  ∀ p ∈ E.files, ∀ g ∈ depFiles E p.1, rankIn order g < rankIn order p.1

/-- The names the directives of `g` require; none when `g` cannot be opened. -/
def namesOf (E : Env) (g : List Char) : List (List Char) :=
  match requiredLibsOf E g with
  | none => []
  | some libs => libs

/-- Equal directive names in the files reached from the entry resolve to the same file. -/
def Unambiguous (E : Env) (entry : List Char) : Prop :=
  ∀ g g' n, Relation.ReflTransGen (Requires E) entry g →
    Relation.ReflTransGen (Requires E) entry g' →
    n ∈ namesOf E g → n ∈ namesOf E g' →
    join (dir g) (n ++ jsExt) = join (dir g') (n ++ jsExt)

/-- What a successful call for the file `g` that goes through the names `L` leaves:
the writes `new` are appended to the log; `seen` has grown and holds `L`; every write
is for a file that `g` requires, directly or through others; every name that came
into `seen` has a write, for the file it resolves to from `g` or from a written file
that requires it; and the names required by the written files are in `seen`. -/
def CoversLibs (E : Env) (g : List Char) (L : List (List Char)) (t t' : Trace) : Prop :=
  ∃ new, t'.emitted = t.emitted ++ new ∧
    (∀ x ∈ t.seen, x ∈ t'.seen) ∧
    (∀ n ∈ L, n ∈ t'.seen) ∧
    (∀ p ∈ new, Relation.TransGen (Requires E) g p.1) ∧
    (∀ x ∈ t'.seen, x ∉ t.seen → ∃ g', (g' = g ∨ g' ∈ new.map Prod.fst) ∧
      x ∈ namesOf E g' ∧ join (dir g') (x ++ jsExt) ∈ new.map Prod.fst) ∧
    (∀ g' ∈ new.map Prod.fst, ∀ n ∈ namesOf E g', n ∈ t'.seen)

/-! ## Adding an override -/

/-- The key under which `getOverrideIfFound` looks a file up: the file name without
the leading `src` and without one leading separator. -/
def libPathOf (src filename : List Char) : List Char :=
  trimPrefix (trimPrefix filename src) ['/']

/-- The environment after `overrides[p] = c`, for a key `p` the map did not hold. -/
def withOverride (E : Env) (p c : List Char) : Env :=
  ⟨E.src, (p, c) :: E.overrides, E.files⟩

/-- A logged write with the bytes `c` in place of its own when it is a write for the
key `p`. -/
def substituteAt (src p c : List Char) (w : List Char × List Char) : List Char × List Char :=
  if libPathOf src w.1 = p then (w.1, c) else w

/-- A trace with `c` substituted in the writes for the key `p`. -/
def Trace.substitute (src p c : List Char) (t : Trace) : Trace :=
  ⟨t.seen, t.emitted.map (substituteAt src p c)⟩

/-! ## Directive extraction as the spec words it -/

/-- The lines of a text: the pieces between newlines. -/
def textLines : List Char → List (List Char)
  | [] => [[]]
  | c :: cs =>
    if c = '\n' then [] :: textLines cs
    else match textLines cs with
      | [] => [[c]]
      | w :: ws => (c :: w) :: ws

/-- The requires of a text in the spec's words: the lines in order, each trimmed,
those kept that start with the prefix, each mapped to the trimmed rest. -/
def requiredLibsBySpec (text : List Char) : List (List Char) :=
  (((textLines text).map trimSpace).filter (fun t => hasPrefix t requirePrefix)).map
    (fun t => trimSpace (t.drop requirePrefix.length))

/-- The size of a text in bytes (UTF-8). -/
def utf8Len (s : List Char) : Nat := (s.map Char.utf8Size).sum

/-- A text whose first line has `maxScanTokenSize` bytes and whose second line is a
directive. -/
def longLineText : List Char :=
  List.replicate maxScanTokenSize 'a' ++ "\n//= require x\n".toList

/-! ## Example environments -/

/-- The entry `app.js` requires `a`, `a` requires `b`, `b` has no directive. -/
def chainEnv : Env := ⟨"/s".toList, [],
  [("/s/app.js".toList, "//= require a\napp();\n".toList),
   ("/s/a.js".toList, "//= require b\nA;\n".toList),
   ("/s/b.js".toList, "B;\n".toList)]⟩

/-- The name `x` is required from two directories: by the entry, where it is
`/s/x.js`, and by `/s/d/y.js`, where it is `/s/d/x.js`. -/
def collideEnv : Env := ⟨"/s".toList, [],
  [("/s/app.js".toList, "//= require x\n//= require d/y\n".toList),
   ("/s/x.js".toList, "X;\n".toList),
   ("/s/d/y.js".toList, "//= require x\nY;\n".toList),
   ("/s/d/x.js".toList, "DX;\n".toList)]⟩

/-- As `collideEnv`, but the file `/s/d/x.js` that `/s/d/y.js` requires does not exist. -/
def missingEnv : Env := ⟨"/s".toList, [],
  [("/s/app.js".toList, "//= require x\n//= require d/y\n".toList),
   ("/s/x.js".toList, "X;\n".toList),
   ("/s/d/y.js".toList, "//= require x\nY;\n".toList)]⟩

/-- The entry requires the file `/s/a.js` twice, as `a` and as `./a`. -/
def aliasEnv : Env := ⟨"/s".toList, [],
  [("/s/app.js".toList, "//= require a\n//= require ./a\n".toList),
   ("/s/a.js".toList, "A;\n".toList)]⟩

/-- The module `a.js` has an override; the file system holds an `a.js` with another
directive. -/
def overrideEnv : Env := ⟨"/s".toList, [("a.js".toList, "//= require b\nOV;\n".toList)],
  [("/s/app.js".toList, "//= require a\n".toList),
   ("/s/a.js".toList, "//= require zz\nFILE;\n".toList),
   ("/s/b.js".toList, "B;\n".toList)]⟩

/-- As `overrideEnv`, but the file system holds no `a.js`. -/
def overrideEnvNoFile : Env := ⟨"/s".toList, [("a.js".toList, "//= require b\nOV;\n".toList)],
  [("/s/app.js".toList, "//= require a\n".toList),
   ("/s/b.js".toList, "B;\n".toList)]⟩

/-- A flat environment: the entry requires `a` and `b`, both require `c`. -/
def flatEnv : Env := ⟨"/s".toList, [],
  [("/s/app.js".toList, "//= require a\n//= require b\n".toList),
   ("/s/a.js".toList, "//= require c\nA;\n".toList),
   ("/s/b.js".toList, "//= require c\nB;\n".toList),
   ("/s/c.js".toList, "C;\n".toList)]⟩

/-- The entry `app.js` has an override that requires `b`; the file requires `zz`. -/
def entryOverrideEnv : Env :=
  ⟨"/s".toList, [("app.js".toList, "//= require b\nOV;\n".toList)],
   [("/s/app.js".toList, "//= require zz\nFILE;\n".toList),
    ("/s/b.js".toList, "B;\n".toList)]⟩

/-! ## Cleaned paths -/

/-- A proper path component: not empty, not `.`, not `..`, without a separator. -/
def IsComp (w : List Char) : Prop := w ≠ [] ∧ w ≠ ['.'] ∧ w ≠ ['.', '.'] ∧ '/' ∉ w

/-- The shape of the output of `cleanComps`: proper components above `..` components,
and no `..` at all in a rooted path. -/
def StackOk (rooted : Bool) (out : List (List Char)) : Prop :=
  ∃ tops dds, out = tops ++ dds ∧ (∀ w ∈ tops, IsComp w) ∧ (∀ w ∈ dds, w = ['.', '.']) ∧
    (rooted = true → dds = [])

/-- The path `clean` builds from the output of `cleanComps`. -/
def render (rooted : Bool) (out : List (List Char)) : List Char :=
  if rooted then '/' :: joinSep out.reverse
  else if out.reverse.isEmpty then ['.'] else joinSep out.reverse

/-- A directory as `filepath.Clean` returns it. -/
def IsCleanDir (D : List Char) : Prop := ∃ r s, StackOk r s ∧ D = render r s

/-! ## The flat layout -/

/-- The file a required name stands for in the directory `D`. -/
def fileOf (D n : List Char) : List Char := join D (n ++ jsExt)

/-- The names the file of the name `n` in `D` requires. -/
def namesDeps (E : Env) (D n : List Char) : List (List Char) :=
  match requiredLibsOf E (fileOf D n) with
  | none => []
  | some libs => libs

/-- The file of `n` in `D` requires the name `m`. -/
def NDep (E : Env) (D n m : List Char) : Prop := m ∈ namesDeps E D n

/-- A name without a separator whose file in `D` exists. -/
def GoodName (E : Env) (D m : List Char) : Prop :=
  '/' ∉ m ∧ requiredLibsOf E (fileOf D m) ≠ none

/-- Each name of the list requires only names before it, `pre` counting as before. -/
def orderedFrom (E : Env) (D : List Char) : List (List Char) → List (List Char) → Prop
  | _, [] => True
  | pre, n :: rest => (∀ m ∈ namesDeps E D n, m ∈ pre) ∧ orderedFrom E D (pre ++ [n]) rest

/-- The log of a trace is the files of the names `ns`, which are all seen, have no
separator, are pairwise different, and each require only names before them. -/
structure TraceInv (E : Env) (D : List Char) (t : Trace) (ns : List (List Char)) : Prop where
  files : t.emitted.map Prod.fst = ns.map (fileOf D)
  sub : ∀ x ∈ ns, x ∈ t.seen
  plain : ∀ x ∈ ns, '/' ∉ x
  nodup : ns.Nodup
  ordered : orderedFrom E D [] ns

/-- Depth-first post-order over a list of required files: a file already in `done`
is passed over; any other file is put at the end of `done` after `visit` has put
what the file requires there. -/
def postOrderAll (visit : List Char → List (List Char) → List (List Char)) :
    List (List Char) → List (List Char) → List (List Char)
  | [], done => done
  | g :: gs, done =>
    if g ∈ done then postOrderAll visit gs done
    else postOrderAll visit gs (visit g done ++ [g])

/-- The files `done` followed by the files that `f` requires, directly or through
others, and that are not in `done`, in depth-first post-order of first encounter;
`f` itself is not added.  The number bounds the depth. -/
def postOrder (E : Env) : Nat → List Char → List (List Char) → List (List Char)
  | 0, _, done => done
  | fuel + 1, f, done => postOrderAll (postOrder E fuel) (depFiles E f) done

/-- What handling the file of a name does in a flat, acyclic part of the graph: it
writes the files of the names reachable from `n` that were not written yet, and puts
just these names into `seen`; the files written so far are then what the depth-first
visit `v` makes of the files written before. -/
def HandlerOk (E : Env) (D : List Char) (h : List Char → Trace → Outcome Trace)
    (v : List Char → List (List Char) → List (List Char)) : Prop :=
  ∀ n t ns,
    (∀ m, Relation.ReflTransGen (NDep E D) n m → GoodName E D m) →
    (∀ m, Relation.ReflTransGen (NDep E D) n m → ¬ Relation.TransGen (NDep E D) m m) →
    (∀ s ∈ t.seen, s ∉ ns → ¬ Relation.TransGen (NDep E D) n s) →
    TraceInv E D t ns →
    h (fileOf D n) t = .fuelOut ∨
    ∃ t' new, h (fileOf D n) t = .ret none t' ∧ TraceInv E D t' (ns ++ new) ∧
      (∀ x, x ∈ t'.seen ↔ x ∈ t.seen ∨ x ∈ new) ∧
      (∀ m ∈ new, Relation.TransGen (NDep E D) n m) ∧
      (∀ m, Relation.TransGen (NDep E D) n m → m ∈ ns ++ new) ∧
      (ns ++ new).map (fileOf D) = v (fileOf D n) (ns.map (fileOf D))

/-! ## The log and the buffer -/

theorem logBytes_append (a b : List (List Char × List Char)) :
    logBytes (a ++ b) = logBytes a ++ logBytes b := by
  simp [logBytes]

theorem handleLibs_toBundler (E : Env) (b : List Char)
    (h : List Char → JsBundler → Outcome JsBundler) (hL : List Char → Trace → Outcome Trace)
    (hh : ∀ f t, h f (Trace.toBundler b t) = (hL f t).toBundler b) (D : List Char) :
    ∀ libs t, handleLibs E h D libs (Trace.toBundler b t)
      = (handleLibsLog E hL D libs t).toBundler b := by
  intro libs
  induction libs with
  | nil => intro t; rfl
  | cons lib libs ih =>
    intro t
    by_cases hs : lib ∈ t.seen
    · have hs' : lib ∈ (Trace.toBundler b t).seen := hs
      rw [handleLibs, handleLibsLog, if_pos hs, if_pos hs']
      exact ih t
    · have hs' : lib ∉ (Trace.toBundler b t).seen := hs
      rw [handleLibs, handleLibsLog, if_neg hs, if_neg hs']
      have e := hh (join D (lib ++ jsExt)) ⟨lib :: t.seen, t.emitted⟩
      simp only [Trace.toBundler] at e ⊢
      rw [e]
      cases hr : hL (join D (lib ++ jsExt)) ⟨lib :: t.seen, t.emitted⟩ with
      | fuelOut => rfl
      | ret err t1 =>
        cases err with
        | some x => rfl
        | none =>
          simp only [Outcome.toBundler, Trace.toBundler]
          cases hc : contentOf E (join D (lib ++ jsExt)) with
          | none => rfl
          | some content =>
            have e2 := ih ⟨t1.seen, t1.emitted ++ [(join D (lib ++ jsExt), content)]⟩
            simp only [Trace.toBundler, Outcome.toBundler, logBytes, List.map_append,
              List.flatten_append, List.map_cons, List.map_nil, List.flatten_cons,
              List.flatten_nil, List.append_nil, List.append_assoc] at e2 ⊢
            exact e2

/-- The buffer is what it was at the start followed by the logged writes. -/
theorem handleFile_toBundler (E : Env) (b : List Char) :
    ∀ fuel f t, handleFile E fuel f (Trace.toBundler b t)
      = (handleFileLog E fuel f t).toBundler b := by
  intro fuel
  induction fuel with
  | zero => intro f t; rfl
  | succ fuel ih =>
    intro f t
    rw [handleFile, handleFileLog]
    cases requiredLibsOf E f with
    | none => rfl
    | some libs => exact handleLibs_toBundler E b _ _ ih (dir f) libs t

theorem newBundle_toBundler (E : Env) (j : JsBundler) (filename : List Char) :
    newBundle E j filename = (newBundleLog E filename).toBundler banner := by
  have e := handleFile_toBundler E banner (fuelBound E) filename ⟨[], []⟩
  simp only [Trace.toBundler, logBytes, List.map_nil, List.flatten_nil, List.append_nil] at e
  simpa [newBundle, newBundleLog] using e

/-! ## Unfolding the loop -/

theorem handleLibsLog_seen (E : Env) (h : List Char → Trace → Outcome Trace) (D lib : List Char)
    (libs : List (List Char)) (t : Trace) (hs : lib ∈ t.seen) :
    handleLibsLog E h D (lib :: libs) t = handleLibsLog E h D libs t := by
  rw [handleLibsLog, if_pos hs]

theorem handleLibsLog_fuelOut (E : Env) (h : List Char → Trace → Outcome Trace)
    (D lib : List Char) (libs : List (List Char)) (t : Trace) (hs : lib ∉ t.seen)
    (hc : h (join D (lib ++ jsExt)) ⟨lib :: t.seen, t.emitted⟩ = .fuelOut) :
    handleLibsLog E h D (lib :: libs) t = .fuelOut := by
  rw [handleLibsLog, if_neg hs]
  simp only [hc]

theorem handleLibsLog_err (E : Env) (h : List Char → Trace → Outcome Trace)
    (D lib : List Char) (libs : List (List Char)) (t : Trace) (hs : lib ∉ t.seen)
    (x : List Char) (t1 : Trace)
    (hc : h (join D (lib ++ jsExt)) ⟨lib :: t.seen, t.emitted⟩ = .ret (some x) t1) :
    handleLibsLog E h D (lib :: libs) t = .ret (some x) t1 := by
  rw [handleLibsLog, if_neg hs]
  simp only [hc]

theorem handleLibsLog_missing (E : Env) (h : List Char → Trace → Outcome Trace)
    (D lib : List Char) (libs : List (List Char)) (t : Trace) (hs : lib ∉ t.seen) (t1 : Trace)
    (hc : h (join D (lib ++ jsExt)) ⟨lib :: t.seen, t.emitted⟩ = .ret none t1)
    (hcont : contentOf E (join D (lib ++ jsExt)) = none) :
    handleLibsLog E h D (lib :: libs) t = .ret (some (join D (lib ++ jsExt))) t1 := by
  rw [handleLibsLog, if_neg hs]
  simp only [hc, hcont]

theorem handleLibsLog_ok (E : Env) (h : List Char → Trace → Outcome Trace)
    (D lib : List Char) (libs : List (List Char)) (t : Trace) (hs : lib ∉ t.seen) (t1 : Trace)
    (content : List Char)
    (hc : h (join D (lib ++ jsExt)) ⟨lib :: t.seen, t.emitted⟩ = .ret none t1)
    (hcont : contentOf E (join D (lib ++ jsExt)) = some content) :
    handleLibsLog E h D (lib :: libs) t
      = handleLibsLog E h D libs ⟨t1.seen, t1.emitted ++ [(join D (lib ++ jsExt), content)]⟩ := by
  rw [handleLibsLog, if_neg hs]
  simp only [hc, hcont]

/-! ## The recursion budget -/

theorem unseenCount_le (E : Env) (seen : List (List Char)) :
    unseenCount E seen ≤ (allLibs E).length := by
  unfold unseenCount
  calc ((allLibs E).toFinset \ seen.toFinset).card
      ≤ (allLibs E).toFinset.card := Finset.card_le_card Finset.sdiff_subset
    _ ≤ (allLibs E).length := List.toFinset_card_le _

theorem unseenCount_mono (E : Env) {seen seen' : List (List Char)} (h : seen ⊆ seen') :
    unseenCount E seen' ≤ unseenCount E seen := by
  unfold unseenCount
  apply Finset.card_le_card
  intro x hx
  simp only [Finset.mem_sdiff, List.mem_toFinset] at hx ⊢
  exact ⟨hx.1, fun hm => hx.2 (h hm)⟩

theorem unseenCount_cons_lt (E : Env) {seen : List (List Char)} {lib : List Char}
    (hl : lib ∈ allLibs E) (hs : lib ∉ seen) :
    unseenCount E (lib :: seen) < unseenCount E seen := by
  unfold unseenCount
  apply Finset.card_lt_card
  rw [Finset.ssubset_iff_of_subset]
  · exact ⟨lib, by simp [hl, hs], by simp⟩
  · intro x hx
    simp only [Finset.mem_sdiff, List.mem_toFinset, List.mem_cons, not_or] at hx ⊢
    exact ⟨hx.1, hx.2.2⟩

theorem find_mem {m : Files} {k v : List Char} (h : find m k = some v) : (k, v) ∈ m := by
  induction m with
  | nil => simp [find] at h
  | cons kv rest ih =>
    obtain ⟨k', v'⟩ := kv
    by_cases e : k' = k
    · simp only [find, if_pos e, Option.some.injEq] at h
      simp [e, h]
    · simp only [find, if_neg e] at h
      exact List.mem_cons_of_mem _ (ih h)

theorem requiredLibsOf_subset (E : Env) {f : List Char} {libs : List (List Char)}
    (h : requiredLibsOf E f = some libs) : libs ⊆ allLibs E := by
  unfold requiredLibsOf at h
  intro x hx
  unfold allLibs
  rw [List.mem_flatMap]
  cases ho : getOverrideIfFound E f with
  | some c =>
    rw [ho] at h
    simp only [Option.some.injEq] at h
    exact ⟨(_, c), List.mem_append_left _ (find_mem ho), by simpa [h] using hx⟩
  | none =>
    rw [ho] at h
    cases hf : find E.files f with
    | none => simp [hf] at h
    | some c =>
      simp only [hf, Option.some.injEq] at h
      exact ⟨(_, c), List.mem_append_right _ (find_mem hf), by simpa [h] using hx⟩

theorem handleLibsLog_ret (E : Env) (fuel : Nat) (h : List Char → Trace → Outcome Trace)
    (hh : ∀ f t, unseenCount E t.seen < fuel → ∃ err t', h f t = .ret err t' ∧ t.seen ⊆ t'.seen)
    (D : List Char) :
    ∀ libs t, libs ⊆ allLibs E → unseenCount E t.seen ≤ fuel →
      ∃ err t', handleLibsLog E h D libs t = .ret err t' ∧ t.seen ⊆ t'.seen := by
  intro libs
  induction libs with
  | nil => intro t _ _; exact ⟨none, t, rfl, fun _ hx => hx⟩
  | cons lib libs ih =>
    intro t hsub hfuel
    have hl : lib ∈ allLibs E := hsub (List.mem_cons_self _ _)
    have hsub' : libs ⊆ allLibs E := fun x hx => hsub (List.mem_cons_of_mem _ hx)
    by_cases hs : lib ∈ t.seen
    · rw [handleLibsLog, if_pos hs]
      exact ih t hsub' hfuel
    · rw [handleLibsLog, if_neg hs]
      have hlt : unseenCount E (lib :: t.seen) < fuel :=
        lt_of_lt_of_le (unseenCount_cons_lt E hl hs) hfuel
      obtain ⟨err, t1, hr, hsub1⟩ := hh (join D (lib ++ jsExt)) ⟨lib :: t.seen, t.emitted⟩ hlt
      have hseen1 : t.seen ⊆ t1.seen := fun x hx => hsub1 (List.mem_cons_of_mem _ hx)
      simp only [hr]
      cases err with
      | some x => exact ⟨some x, t1, rfl, hseen1⟩
      | none =>
        cases hc : contentOf E (join D (lib ++ jsExt)) with
        | none => exact ⟨_, t1, rfl, hseen1⟩
        | some content =>
          obtain ⟨err2, t2, hr2, hsub2⟩ :=
            ih ⟨t1.seen, t1.emitted ++ [(join D (lib ++ jsExt), content)]⟩ hsub'
              (le_trans (unseenCount_mono E hseen1) hfuel)
          exact ⟨err2, t2, hr2, fun x hx => hsub2 (hseen1 hx)⟩

/-- With a budget above the number of unseen names `handleFile` returns. -/
theorem handleFileLog_ret (E : Env) :
    ∀ fuel f t, unseenCount E t.seen < fuel →
      ∃ err t', handleFileLog E fuel f t = .ret err t' ∧ t.seen ⊆ t'.seen := by
  intro fuel
  induction fuel with
  | zero => intro f t h; exact absurd h (Nat.not_lt_zero _)
  | succ fuel ih =>
    intro f t hfuel
    rw [handleFileLog]
    cases hq : requiredLibsOf E f with
    | none => exact ⟨_, t, rfl, fun _ hx => hx⟩
    | some libs =>
      exact handleLibsLog_ret E fuel _ ih (dir f) libs t (requiredLibsOf_subset E hq)
        (Nat.lt_succ_iff.mp hfuel)

theorem handleLibsLog_mono (E : Env) (h h' : List Char → Trace → Outcome Trace)
    (hh : ∀ f t err t', h f t = .ret err t' → h' f t = .ret err t') (D : List Char) :
    ∀ libs t err t', handleLibsLog E h D libs t = .ret err t' →
      handleLibsLog E h' D libs t = .ret err t' := by
  intro libs
  induction libs with
  | nil => intro t err t' hr; exact hr
  | cons lib libs ih =>
    intro t err t' hr
    by_cases hs : lib ∈ t.seen
    · rw [handleLibsLog_seen E _ D lib libs t hs] at hr ⊢
      exact ih t err t' hr
    · cases hc : h (join D (lib ++ jsExt)) ⟨lib :: t.seen, t.emitted⟩ with
      | fuelOut => rw [handleLibsLog_fuelOut E h D lib libs t hs hc] at hr; cases hr
      | ret e1 t1 =>
        have hc' := hh _ _ _ _ hc
        cases e1 with
        | some x =>
          rw [handleLibsLog_err E h D lib libs t hs x t1 hc] at hr
          rw [handleLibsLog_err E h' D lib libs t hs x t1 hc']
          exact hr
        | none =>
          cases hcont : contentOf E (join D (lib ++ jsExt)) with
          | none =>
            rw [handleLibsLog_missing E h D lib libs t hs t1 hc hcont] at hr
            rw [handleLibsLog_missing E h' D lib libs t hs t1 hc' hcont]
            exact hr
          | some content =>
            rw [handleLibsLog_ok E h D lib libs t hs t1 content hc hcont] at hr
            rw [handleLibsLog_ok E h' D lib libs t hs t1 content hc' hcont]
            exact ih _ err t' hr

/-- A larger budget does not change what a call returns. -/
theorem handleFileLog_mono (E : Env) :
    ∀ fuel fuel' f t err t', fuel ≤ fuel' → handleFileLog E fuel f t = .ret err t' →
      handleFileLog E fuel' f t = .ret err t' := by
  intro fuel
  induction fuel with
  | zero => intro fuel' f t err t' _ hr; simp [handleFileLog] at hr
  | succ fuel ih =>
    intro fuel' f t err t' hle hr
    obtain ⟨k, rfl⟩ : ∃ k, fuel' = k + 1 := ⟨fuel' - 1, by omega⟩
    rw [handleFileLog] at hr ⊢
    cases hq : requiredLibsOf E f with
    | none => simpa [hq] using hr
    | some libs =>
      simp only [hq] at hr ⊢
      exact handleLibsLog_mono E _ _ (fun f t err t' hc => ih k f t err t' (by omega) hc)
        (dir f) libs t err t' hr

/-- From the budget of `newBundle` on, the budget does not matter. -/
theorem handleFileLog_fuelBound (E : Env) (fuel : Nat) (hf : fuelBound E ≤ fuel)
    (f : List Char) (t : Trace) :
    handleFileLog E fuel f t = handleFileLog E (fuelBound E) f t := by
  obtain ⟨err, t', hr, _⟩ := handleFileLog_ret E (fuelBound E) f t
    (Nat.lt_succ_of_le (unseenCount_le E t.seen))
  rw [hr]
  exact handleFileLog_mono E _ _ f t err t' hf hr

/-! ## Termination -/

theorem handleFile_fuelBound (E : Env) (fuel : Nat) (hf : fuelBound E ≤ fuel)
    (f : List Char) (j : JsBundler) :
    handleFile E fuel f j = handleFile E (fuelBound E) f j := by
  have e : j = Trace.toBundler j.buff ⟨j.seen, []⟩ := by
    simp [Trace.toBundler, logBytes]
  rw [e, handleFile_toBundler, handleFile_toBundler, handleFileLog_fuelBound E fuel hf]

theorem handleFile_ret (E : Env) (f : List Char) (j : JsBundler) :
    ∃ err j', handleFile E (fuelBound E) f j = .ret err j' := by
  have e : j = Trace.toBundler j.buff ⟨j.seen, []⟩ := by
    simp [Trace.toBundler, logBytes]
  obtain ⟨err, t', hr, _⟩ := handleFileLog_ret E (fuelBound E) f ⟨j.seen, []⟩
    (Nat.lt_succ_of_le (unseenCount_le E j.seen))
  rw [e, handleFile_toBundler, hr]
  exact ⟨err, _, rfl⟩

/-- C4 (termination): over a finite file system and a finite override store, with any
directives at all in the files (cycles and self-requires included), `newBundle`
returns, with success or with an error, for every entry file; and `handleFile`,
started in any state, returns one and the same result for every recursion budget
from `fuelBound E` on, so the recursion is well-founded. -/
theorem handleFile_terminates (E : Env) (j : JsBundler) (filename : List Char) :
    (∃ err j', newBundle E j filename = .ret err j') ∧
    (∃ err j', ∀ fuel, fuelBound E ≤ fuel → handleFile E fuel filename j = .ret err j') := by
  constructor
  · exact handleFile_ret E filename _
  · obtain ⟨err, j', hr⟩ := handleFile_ret E filename j
    exact ⟨err, j', fun fuel hf => by rw [handleFile_fuelBound E fuel hf, hr]⟩

/-! ## Session freshness -/

theorem bundleLoop_fresh (E : Env) (dst : List Char) :
    ∀ names j j' out,
      writtenFiles (bundleLoop E dst names j out) = writtenFiles (bundleLoop E dst names j' out) := by
  intro names
  induction names with
  | nil => intro j j' out; rfl
  | cons name names ih =>
    intro j j' out
    by_cases h : hasSuffix name jsExt = true
    · have e : bundleLoop E dst (name :: names) j out
          = bundleLoop E dst (name :: names) j' out := by
        simp only [bundleLoop, h, if_true]
        rfl
      rw [e]
    · simp only [bundleLoop, h]
      exact ih j j' out

/-- C9 (session freshness): whatever `seen` and `buff` hold when `newBundle` is
called, the result is the same, so it depends on the environment and the entry
file alone; in particular the bundle of `f` built right after the bundle of any
entry `g` (also `g = f`) is the bundle of `f` built first, and the files the loop of
`bundle` writes for a list of entries do not depend on the state it starts in. -/
theorem newBundle_fresh (E : Env) (j j' : JsBundler) (f g dst : List Char)
    (names : List (List Char)) (out : Files) :
    newBundle E j f = newBundle E j' f ∧
    newBundle E (receiverAfter j (newBundle E j g)) f = newBundle E ⟨[], []⟩ f ∧
    writtenFiles (bundleLoop E dst names j out)
      = writtenFiles (bundleLoop E dst names j' out) :=
  ⟨rfl, rfl, bundleLoop_fresh E dst names j j' out⟩

/-! ## What is written -/

theorem handleLibsLog_content (E : Env) (h : List Char → Trace → Outcome Trace)
    (hh : ∀ f t err t', h f t = .ret err t' →
      (∀ p ∈ t.emitted, contentOf E p.1 = some p.2) → ∀ p ∈ t'.emitted, contentOf E p.1 = some p.2)
    (D : List Char) :
    ∀ libs t err t', handleLibsLog E h D libs t = .ret err t' →
      (∀ p ∈ t.emitted, contentOf E p.1 = some p.2) →
      ∀ p ∈ t'.emitted, contentOf E p.1 = some p.2 := by
  intro libs
  induction libs with
  | nil =>
    intro t err t' hr ht
    simp only [handleLibsLog, Outcome.ret.injEq] at hr
    rw [← hr.2]; exact ht
  | cons lib libs ih =>
    intro t err t' hr ht
    by_cases hs : lib ∈ t.seen
    · rw [handleLibsLog_seen E _ D lib libs t hs] at hr
      exact ih t err t' hr ht
    · cases hc : h (join D (lib ++ jsExt)) ⟨lib :: t.seen, t.emitted⟩ with
      | fuelOut => rw [handleLibsLog_fuelOut E h D lib libs t hs hc] at hr; cases hr
      | ret e1 t1 =>
        have h1 := hh _ _ _ _ hc ht
        cases e1 with
        | some x =>
          rw [handleLibsLog_err E h D lib libs t hs x t1 hc] at hr
          simp only [Outcome.ret.injEq] at hr
          rw [← hr.2]; exact h1
        | none =>
          cases hcont : contentOf E (join D (lib ++ jsExt)) with
          | none =>
            rw [handleLibsLog_missing E h D lib libs t hs t1 hc hcont] at hr
            simp only [Outcome.ret.injEq] at hr
            rw [← hr.2]; exact h1
          | some content =>
            rw [handleLibsLog_ok E h D lib libs t hs t1 content hc hcont] at hr
            refine ih _ err t' hr ?_
            intro p hp
            rcases List.mem_append.mp hp with hp | hp
            · exact h1 p hp
            · simp only [List.mem_singleton] at hp
              subst hp; exact hcont

/-- Every logged write carries the content the environment has for the file written. -/
theorem handleFileLog_content (E : Env) :
    ∀ fuel f t err t', handleFileLog E fuel f t = .ret err t' →
      (∀ p ∈ t.emitted, contentOf E p.1 = some p.2) →
      ∀ p ∈ t'.emitted, contentOf E p.1 = some p.2 := by
  intro fuel
  induction fuel with
  | zero => intro f t err t' hr; simp [handleFileLog] at hr
  | succ fuel ih =>
    intro f t err t' hr ht
    rw [handleFileLog] at hr
    cases hq : requiredLibsOf E f with
    | none =>
      simp only [hq, Outcome.ret.injEq] at hr
      rw [← hr.2]; exact ht
    | some libs =>
      simp only [hq] at hr
      exact handleLibsLog_content E _ ih (dir f) libs t err t' hr ht

/-! ## Override precedence -/

theorem handleLibsLog_congr (E E' : Env) (hc : ∀ f, contentOf E f = contentOf E' f)
    (h h' : List Char → Trace → Outcome Trace) (hh : ∀ f t, h f t = h' f t) (D : List Char) :
    ∀ libs t, handleLibsLog E h D libs t = handleLibsLog E' h' D libs t := by
  intro libs
  induction libs with
  | nil => intro t; rfl
  | cons lib libs ih =>
    intro t
    rw [handleLibsLog, handleLibsLog]
    simp only [hh, hc, ih]

theorem handleFileLog_congr (E E' : Env) (hq : ∀ f, requiredLibsOf E f = requiredLibsOf E' f)
    (hc : ∀ f, contentOf E f = contentOf E' f) :
    ∀ fuel f t, handleFileLog E fuel f t = handleFileLog E' fuel f t := by
  intro fuel
  induction fuel with
  | zero => intro f t; rfl
  | succ fuel ih =>
    intro f t
    rw [handleFileLog, handleFileLog, hq]
    cases requiredLibsOf E' f with
    | none => rfl
    | some libs => exact handleLibsLog_congr E E' hc _ _ ih (dir f) libs t

theorem newBundleLog_congr (E E' : Env) (hq : ∀ f, requiredLibsOf E f = requiredLibsOf E' f)
    (hc : ∀ f, contentOf E f = contentOf E' f) (filename : List Char) :
    newBundleLog E filename = newBundleLog E' filename := by
  unfold newBundleLog
  rw [← handleFileLog_fuelBound E (max (fuelBound E) (fuelBound E')) (le_max_left _ _),
    ← handleFileLog_fuelBound E' (max (fuelBound E) (fuelBound E')) (le_max_right _ _)]
  exact handleFileLog_congr E E' hq hc _ _ _

/-! ## The entry file -/

/-- C3, as the spec has it, fails on the chain `app.js` requires `a`, `a` requires
`b`: the buffer is the banner, the content of `b` and the content of `a`; the
content of `app.js` does not follow. -/
theorem entry_content_not_written :
    newBundle chainEnv ⟨[], []⟩ "/s/app.js".toList
      = .ret none ⟨["b".toList, "a".toList], banner ++ "B;\n".toList ++ "//= require b\nA;\n".toList⟩ ∧
    find chainEnv.files "/s/app.js".toList = some "//= require a\napp();\n".toList ∧
    banner ++ "B;\n".toList ++ "//= require b\nA;\n".toList
      ≠ banner ++ "B;\n".toList ++ "//= require b\nA;\n".toList ++ "//= require a\napp();\n".toList := by
  decide

/-! ## Override independence -/

theorem getOverrideIfFound_withOverride (E : Env) (p c f : List Char) :
    getOverrideIfFound (withOverride E p c) f
      = if libPathOf E.src f = p then some c else getOverrideIfFound E f := by
  simp only [getOverrideIfFound, withOverride, find, libPathOf]
  by_cases h : p = trimPrefix (trimPrefix f E.src) ['/']
  · rw [if_pos h, if_pos h.symm]
  · rw [if_neg h, if_neg (fun e => h e.symm)]

theorem getOverrideIfFound_of_new (E : Env) (p f : List Char)
    (hnew : find E.overrides p = none) (hf : libPathOf E.src f = p) :
    getOverrideIfFound E f = none := by
  simp only [getOverrideIfFound]
  simp only [libPathOf] at hf
  rw [hf, hnew]

theorem handleLibsLog_withOverride (E : Env) (p c : List Char)
    (hnew : find E.overrides p = none)
    (h h' : List Char → Trace → Outcome Trace)
    (hh : ∀ f t t', h f t = .ret none t' →
      (libPathOf E.src f = p → requiredLibsOf E f = some (extractRequiredLibs c)) →
      (∀ q ∈ t'.emitted, libPathOf E.src q.1 = p →
        extractRequiredLibs q.2 = extractRequiredLibs c) →
      h' f (t.substitute E.src p c) = .ret none (t'.substitute E.src p c) ∧
        ∀ q ∈ t.emitted, q ∈ t'.emitted)
    (D : List Char) :
    ∀ libs t t', handleLibsLog E h D libs t = .ret none t' →
      (∀ q ∈ t'.emitted, libPathOf E.src q.1 = p →
        extractRequiredLibs q.2 = extractRequiredLibs c) →
      handleLibsLog (withOverride E p c) h' D libs (t.substitute E.src p c)
          = .ret none (t'.substitute E.src p c) ∧
        ∀ q ∈ t.emitted, q ∈ t'.emitted := by
  intro libs
  induction libs with
  | nil =>
    intro t t' hr _
    simp only [handleLibsLog, Outcome.ret.injEq, true_and] at hr
    subst hr
    exact ⟨rfl, fun _ hq => hq⟩
  | cons lib libs ih =>
    intro t t' hr hreq
    by_cases hs : lib ∈ t.seen
    · rw [handleLibsLog_seen E _ _ lib libs t hs] at hr
      rw [handleLibsLog_seen _ _ _ lib libs _ (show lib ∈ (t.substitute E.src p c).seen from hs)]
      exact ih t t' hr hreq
    · cases hc : h (join D (lib ++ jsExt)) ⟨lib :: t.seen, t.emitted⟩ with
      | fuelOut => rw [handleLibsLog_fuelOut E h _ lib libs t hs hc] at hr; cases hr
      | ret e1 t1 =>
        cases e1 with
        | some x => rw [handleLibsLog_err E h _ lib libs t hs x t1 hc] at hr; cases hr
        | none =>
          cases hcont : contentOf E (join D (lib ++ jsExt)) with
          | none => rw [handleLibsLog_missing E h _ lib libs t hs t1 hc hcont] at hr; cases hr
          | some content =>
            rw [handleLibsLog_ok E h _ lib libs t hs t1 content hc hcont] at hr
            obtain ⟨hr2, hgrow2⟩ := ih _ t' hr hreq
            simp only at hgrow2
            have hmem : (join D (lib ++ jsExt), content) ∈ t'.emitted :=
              hgrow2 _ (List.mem_append_right _ (List.mem_singleton_self _))
            have hpre : libPathOf E.src (join D (lib ++ jsExt)) = p →
                requiredLibsOf E (join D (lib ++ jsExt)) = some (extractRequiredLibs c) := by
              intro hp
              have ho := getOverrideIfFound_of_new E p _ hnew hp
              have hfile : find E.files (join D (lib ++ jsExt)) = some content := by
                simpa [contentOf, ho] using hcont
              simp only [requiredLibsOf, ho, hfile]
              rw [hreq _ hmem hp]
            obtain ⟨hr1, hgrow1⟩ := hh _ _ _ hc hpre
              (fun q hq => hreq q (hgrow2 q (List.mem_append_left _ hq)))
            simp only at hgrow1
            refine ⟨?_, fun q hq => hgrow2 q (List.mem_append_left _ (hgrow1 q hq))⟩
            have hcont' : contentOf (withOverride E p c) (join D (lib ++ jsExt))
                = some (substituteAt E.src p c (join D (lib ++ jsExt), content)).2 := by
              simp only [contentOf, getOverrideIfFound_withOverride, substituteAt]
              by_cases hp : libPathOf E.src (join D (lib ++ jsExt)) = p
              · simp only [if_pos hp]
              · simp only [if_neg hp]
                exact hcont
            have hsub : substituteAt E.src p c (join D (lib ++ jsExt), content)
                = (join D (lib ++ jsExt),
                    (substituteAt E.src p c (join D (lib ++ jsExt), content)).2) := by
              simp only [substituteAt]; split <;> rfl
            have harg : Trace.substitute E.src p c
                  ⟨t1.seen, t1.emitted ++ [(join D (lib ++ jsExt), content)]⟩
                = ⟨(t1.substitute E.src p c).seen, (t1.substitute E.src p c).emitted ++
                    [(join D (lib ++ jsExt),
                      (substituteAt E.src p c (join D (lib ++ jsExt), content)).2)]⟩ := by
              simp only [Trace.substitute, List.map_append, List.map_cons, List.map_nil]
              rw [← hsub]
            rw [handleLibsLog_ok (withOverride E p c) h' D lib libs (t.substitute E.src p c)
              (show lib ∉ (t.substitute E.src p c).seen from hs) (t1.substitute E.src p c)
              _ hr1 hcont']
            rw [harg] at hr2
            exact hr2

theorem handleFileLog_withOverride (E : Env) (p c : List Char)
    (hnew : find E.overrides p = none) :
    ∀ fuel f t t', handleFileLog E fuel f t = .ret none t' →
      (libPathOf E.src f = p → requiredLibsOf E f = some (extractRequiredLibs c)) →
      (∀ q ∈ t'.emitted, libPathOf E.src q.1 = p →
        extractRequiredLibs q.2 = extractRequiredLibs c) →
      handleFileLog (withOverride E p c) fuel f (t.substitute E.src p c)
          = .ret none (t'.substitute E.src p c) ∧
        ∀ q ∈ t.emitted, q ∈ t'.emitted := by
  intro fuel
  induction fuel with
  | zero => intro f t t' hr; simp [handleFileLog] at hr
  | succ fuel ih =>
    intro f t t' hr hpre hreq
    rw [handleFileLog] at hr ⊢
    have hq' : requiredLibsOf (withOverride E p c) f = requiredLibsOf E f := by
      by_cases hp : libPathOf E.src f = p
      · rw [hpre hp]
        simp only [requiredLibsOf, getOverrideIfFound_withOverride, if_pos hp]
      · simp only [requiredLibsOf, getOverrideIfFound_withOverride, if_neg hp]
        rfl
    rw [hq']
    cases hq : requiredLibsOf E f with
    | none => simp [hq] at hr
    | some libs =>
      simp only [hq] at hr ⊢
      exact handleLibsLog_withOverride E p c hnew _ _ ih (dir f) libs t t' hr hreq

/-- C8 (override independence): let the bundle of `entry` succeed with the log
`t.emitted`, let `p` be a key without an override that is not the key of the entry,
and let `c` be a text with the same requires as the content of every written module
with key `p`.  With the override `p ↦ c` added the bundle succeeds with the same
`seen`, the same sequence of written files, and the same bytes for every write but
those for `p`, which are `c`. -/
theorem override_independence (E : Env) (p c entry : List Char) (j : JsBundler) (t : Trace)
    (hnew : find E.overrides p = none)
    (hentry : libPathOf E.src entry ≠ p)
    (hrun : newBundleLog E entry = .ret none t)
    (hreq : ∀ q ∈ t.emitted, libPathOf E.src q.1 = p →
      extractRequiredLibs q.2 = extractRequiredLibs c) :
    newBundle E j entry = .ret none ⟨t.seen, banner ++ logBytes t.emitted⟩ ∧
    newBundleLog (withOverride E p c) entry
      = .ret none ⟨t.seen, t.emitted.map (substituteAt E.src p c)⟩ ∧
    newBundle (withOverride E p c) j entry
      = .ret none ⟨t.seen, banner ++ logBytes (t.emitted.map (substituteAt E.src p c))⟩ ∧
    (t.emitted.map (substituteAt E.src p c)).map Prod.fst = t.emitted.map Prod.fst ∧
    (∀ q ∈ t.emitted, libPathOf E.src q.1 ≠ p → substituteAt E.src p c q = q) := by
  have hlog : newBundleLog (withOverride E p c) entry
      = .ret none ⟨t.seen, t.emitted.map (substituteAt E.src p c)⟩ := by
    unfold newBundleLog at hrun ⊢
    have hup := handleFileLog_mono E _ (max (fuelBound E) (fuelBound (withOverride E p c)))
      _ _ _ _ (le_max_left _ _) hrun
    have := (handleFileLog_withOverride E p c hnew _ _ _ _ hup
      (fun hp => absurd hp hentry) hreq).1
    rw [← handleFileLog_fuelBound (withOverride E p c) _ (le_max_right _ _)]
    exact this
  refine ⟨?_, hlog, ?_, ?_, ?_⟩
  · rw [newBundle_toBundler, hrun]; rfl
  · rw [newBundle_toBundler, hlog]; rfl
  · rw [List.map_map]
    apply List.map_congr_left
    intro q _
    simp only [Function.comp, substituteAt]
    split <;> rfl
  · intro q _ hq
    simp only [substituteAt, if_neg hq]

/-- Witness of `override_independence`: in the chain `app.js`, `a`, `b` the module
`a.js` gets an override with the same directive and other code. -/
theorem override_independence_witness :
    newBundle chainEnv ⟨[], []⟩ "/s/app.js".toList
      = .ret none ⟨["b".toList, "a".toList],
          banner ++ logBytes [("/s/b.js".toList, "B;\n".toList),
            ("/s/a.js".toList, "//= require b\nA;\n".toList)]⟩ ∧
    newBundleLog (withOverride chainEnv "a.js".toList "//= require b\nA2;\n".toList)
        "/s/app.js".toList
      = .ret none ⟨["b".toList, "a".toList],
          [("/s/b.js".toList, "B;\n".toList),
            ("/s/a.js".toList, "//= require b\nA;\n".toList)].map
              (substituteAt chainEnv.src "a.js".toList "//= require b\nA2;\n".toList)⟩ ∧
    newBundle (withOverride chainEnv "a.js".toList "//= require b\nA2;\n".toList) ⟨[], []⟩
        "/s/app.js".toList
      = .ret none ⟨["b".toList, "a".toList],
          banner ++ logBytes ([("/s/b.js".toList, "B;\n".toList),
            ("/s/a.js".toList, "//= require b\nA;\n".toList)].map
              (substituteAt chainEnv.src "a.js".toList "//= require b\nA2;\n".toList))⟩ ∧
    ([("/s/b.js".toList, "B;\n".toList), ("/s/a.js".toList, "//= require b\nA;\n".toList)].map
        (substituteAt chainEnv.src "a.js".toList "//= require b\nA2;\n".toList)).map Prod.fst
      = [("/s/b.js".toList, "B;\n".toList),
          ("/s/a.js".toList, "//= require b\nA;\n".toList)].map Prod.fst ∧
    (∀ q ∈ [("/s/b.js".toList, "B;\n".toList), ("/s/a.js".toList, "//= require b\nA;\n".toList)],
      libPathOf chainEnv.src q.1 ≠ "a.js".toList →
        substituteAt chainEnv.src "a.js".toList "//= require b\nA2;\n".toList q = q) :=
  override_independence chainEnv "a.js".toList "//= require b\nA2;\n".toList
    "/s/app.js".toList ⟨[], []⟩
    ⟨["b".toList, "a".toList],
      [("/s/b.js".toList, "B;\n".toList), ("/s/a.js".toList, "//= require b\nA;\n".toList)]⟩
    (by decide) (by decide) (by decide) (by decide)

/-! ## Directive extraction -/

theorem scanLinesAux_long (rest : List Char) :
    ∀ k cur n, maxScanTokenSize ≤ n + (k + 1) →
      scanLinesAux (List.replicate (k + 1) 'a' ++ rest) cur n = [] := by
  intro k
  induction k with
  | zero =>
    intro cur n h
    have h1 : maxScanTokenSize ≤ n + Char.utf8Size 'a' := h
    simp only [List.replicate, List.cons_append, List.nil_append, scanLinesAux]
    rw [if_neg (by decide), if_pos h1]
  | succ k ih =>
    intro cur n h
    rw [List.replicate_succ, List.cons_append, scanLinesAux, if_neg (by decide)]
    by_cases h1 : maxScanTokenSize ≤ n + Char.utf8Size 'a'
    · rw [if_pos h1]
    · rw [if_neg h1]
      apply ih
      have : Char.utf8Size 'a' = 1 := by decide
      omega

theorem textLines_replicate (rest : List Char) :
    ∀ k, textLines (List.replicate k 'a' ++ '\n' :: rest)
      = List.replicate k 'a' :: textLines rest := by
  intro k
  induction k with
  | zero => simp [textLines]
  | succ k ih =>
    rw [List.replicate_succ, List.cons_append, textLines, if_neg (by decide), ih]

theorem trimSpace_replicate (k : Nat) :
    trimSpace (List.replicate (k + 1) 'a') = List.replicate (k + 1) 'a' := by
  have h : trimLeft (List.replicate (k + 1) 'a') = List.replicate (k + 1) 'a' := by
    rw [List.replicate_succ, trimLeft, if_neg (by decide)]
  rw [trimSpace, h, List.reverse_replicate, h, List.reverse_replicate]

/-- C7 at `longLineText`: the first line has 65536 bytes, more than a token of the
scanner may have, so `Scan` stops there and `extractRequiredLibs` returns no name,
although the second line is the directive `//= require x`, which the spec's
extraction returns and which the code returns for the text without its first line. -/
theorem extractRequiredLibs_long_line :
    extractRequiredLibs longLineText = [] ∧
    requiredLibsBySpec longLineText = ["x".toList] ∧
    extractRequiredLibs "\n//= require x\n".toList = ["x".toList] := by
  refine ⟨?_, ?_, by decide⟩
  · have h := scanLinesAux_long "\n//= require x\n".toList 65535 [] 0 (by decide)
    show List.filterMap requiredLibOfLine (scanLinesAux longLineText [] 0) = []
    have e : longLineText = List.replicate (65535 + 1) 'a' ++ "\n//= require x\n".toList := rfl
    rw [e, h]
    rfl
  · have e : longLineText
        = List.replicate (65535 + 1) 'a' ++ '\n' :: "//= require x\n".toList := rfl
    have hp : hasPrefix (List.replicate (65535 + 1) 'a') requirePrefix = false := by
      rw [List.replicate_succ]
      rfl
    rw [requiredLibsBySpec, e, textLines_replicate, List.map_cons, trimSpace_replicate,
      List.filter_cons, hp]
    decide

theorem textLines_ne_nil (p : List Char) : textLines p ≠ [] := by
  cases p with
  | nil => simp [textLines]
  | cons c cs =>
    rw [textLines]
    split
    · simp
    · split <;> simp

theorem textLines_no_newline (w : List Char) (h : '\n' ∉ w) : textLines w = [w] := by
  induction w with
  | nil => rfl
  | cons c cs ih =>
    have hc : c ≠ '\n' := fun e => h (by simp [e])
    have hcs : '\n' ∉ cs := fun e => h (List.mem_cons_of_mem _ e)
    rw [textLines, if_neg hc, ih hcs]

theorem textLines_append_newline (a b : List Char) (h : '\n' ∉ a) :
    textLines (a ++ '\n' :: b) = a :: textLines b := by
  induction a with
  | nil => simp [textLines]
  | cons c cs ih =>
    have hc : c ≠ '\n' := fun e => h (by simp [e])
    have hcs : '\n' ∉ cs := fun e => h (List.mem_cons_of_mem _ e)
    rw [List.cons_append, textLines, if_neg hc, ih hcs]

theorem textLines_first (a text : List Char) (h : '\n' ∉ a) :
    ∃ rest tail, textLines (a ++ text) = (a ++ rest) :: tail := by
  induction a with
  | nil =>
    cases hl : textLines text with
    | nil => exact absurd hl (textLines_ne_nil text)
    | cons w ws => exact ⟨w, ws, by simpa using hl⟩
  | cons c cs ih =>
    have hc : c ≠ '\n' := fun e => h (by simp [e])
    have hcs : '\n' ∉ cs := fun e => h (List.mem_cons_of_mem _ e)
    obtain ⟨rest, tail, e⟩ := ih hcs
    refine ⟨rest, tail, ?_⟩
    rw [List.cons_append, textLines, if_neg hc, e]
    rfl

theorem utf8Len_append (a b : List Char) : utf8Len (a ++ b) = utf8Len a + utf8Len b := by
  simp [utf8Len]

theorem utf8Len_reverse (a : List Char) : utf8Len a.reverse = utf8Len a := by
  simp [utf8Len, List.sum_reverse]

theorem trimLeft_append_space (c : Char) (hc : isSpace c = true) (s : List Char) :
    trimLeft (s ++ [c]) = if trimLeft s = [] then [] else trimLeft s ++ [c] := by
  induction s with
  | nil => simp [trimLeft, hc]
  | cons x xs ih =>
    by_cases hx : isSpace x = true
    · simp only [List.cons_append, trimLeft, hx, if_true]
      exact ih
    · simp [trimLeft, hx]

theorem trimSpace_append_space (c : Char) (hc : isSpace c = true) (s : List Char) :
    trimSpace (s ++ [c]) = trimSpace s := by
  unfold trimSpace
  rw [trimLeft_append_space c hc s]
  by_cases h : trimLeft s = []
  · rw [if_pos h, h]
  · rw [if_neg h, List.reverse_append, List.reverse_singleton, List.singleton_append,
      trimLeft, if_pos hc]

theorem trimSpace_dropCR (w : List Char) : trimSpace (dropCR w) = trimSpace w := by
  unfold dropCR
  split
  · rename_i rest hr
    have hw : w = rest.reverse ++ ['\r'] := by
      have := congrArg List.reverse hr
      simpa using this
    rw [hw, trimSpace_append_space '\r' (by decide)]
  · rfl

theorem requiredLibOfLine_dropCR (w : List Char) :
    requiredLibOfLine (dropCR w) = requiredLibOfLine w := by
  simp only [requiredLibOfLine, trimSpace_dropCR]

theorem requiredLibsBySpec_eq (text : List Char) :
    requiredLibsBySpec text = (textLines text).filterMap requiredLibOfLine := by
  unfold requiredLibsBySpec
  induction textLines text with
  | nil => rfl
  | cons w ws ih =>
    rw [List.map_cons, List.filter_cons, List.filterMap_cons]
    by_cases hp : hasPrefix (trimSpace w) requirePrefix = true
    · simp only [hp, if_true, List.map_cons, requiredLibOfLine, ih]
    · have hp' : hasPrefix (trimSpace w) requirePrefix = false := by simpa using hp
      simp only [hp', requiredLibOfLine, Bool.false_eq_true, if_false]
      exact ih

theorem scanLinesAux_eq_textLines :
    ∀ text cur n, n = utf8Len cur → '\n' ∉ cur →
      (∀ line ∈ textLines (cur.reverse ++ text), utf8Len line < maxScanTokenSize) →
      (scanLinesAux text cur n).filterMap requiredLibOfLine
        = (textLines (cur.reverse ++ text)).filterMap requiredLibOfLine := by
  intro text
  induction text with
  | nil =>
    intro cur n _ hcur _
    rw [List.append_nil, textLines_no_newline _ (fun h => hcur (List.mem_reverse.mp h)),
      scanLinesAux]
    cases cur with
    | nil => decide
    | cons x xs =>
      simp only [List.isEmpty_cons, Bool.false_eq_true, if_false, List.filterMap_cons,
        requiredLibOfLine_dropCR]
  | cons c cs ih =>
    intro cur n hn hcur hshort
    have hrev : '\n' ∉ cur.reverse := fun h => hcur (List.mem_reverse.mp h)
    by_cases hc : c = '\n'
    · subst hc
      rw [scanLinesAux, if_pos rfl, textLines_append_newline _ _ hrev, List.filterMap_cons,
        List.filterMap_cons, requiredLibOfLine_dropCR]
      have hrest := ih [] 0 rfl (by simp) (by
        intro line hl
        apply hshort
        rw [textLines_append_newline _ _ hrev]
        exact List.mem_cons_of_mem _ (by simpa using hl))
      simp only [List.reverse_nil, List.nil_append] at hrest
      rw [hrest]
    · have hcur' : '\n' ∉ c :: cur := by
        intro h
        rcases List.mem_cons.mp h with e | h
        · exact hc e.symm
        · exact hcur h
      have hsplit : cur.reverse ++ c :: cs = (c :: cur).reverse ++ cs := by simp
      have hfit : ¬ maxScanTokenSize ≤ n + c.utf8Size := by
        obtain ⟨rest, tail, e⟩ := textLines_first (c :: cur).reverse cs
          (fun h => hcur' (List.mem_reverse.mp h))
        have := hshort ((c :: cur).reverse ++ rest) (by rw [hsplit, e]; simp)
        rw [utf8Len_append, utf8Len_reverse] at this
        have hlen : utf8Len (c :: cur) = c.utf8Size + utf8Len cur := by simp [utf8Len]
        omega
      rw [scanLinesAux, if_neg hc, if_neg hfit, hsplit]
      apply ih (c :: cur) (n + c.utf8Size) _ hcur' (by rw [← hsplit]; exact hshort)
      simp [utf8Len, hn, Nat.add_comm]

/-- For a text all of whose lines are shorter than `maxScanTokenSize` bytes,
`extractRequiredLibs` returns what the spec's words describe: the lines in order,
each trimmed, those kept that start with `//= require`, each mapped to the trimmed
rest. -/
theorem extractRequiredLibs_eq_spec (text : List Char)
    (hshort : ∀ line ∈ textLines text, utf8Len line < maxScanTokenSize) :
    extractRequiredLibs text = requiredLibsBySpec text := by
  rw [requiredLibsBySpec_eq]
  exact scanLinesAux_eq_textLines text [] 0 rfl (by simp) (by simpa using hshort)

/-- Witness of `extractRequiredLibs_eq_spec`: three directives, one of them twice. -/
theorem extractRequiredLibs_eq_spec_witness :
    extractRequiredLibs "//= require a\r\n  //= require lib/b \nvar x;\n//= require a".toList
      = requiredLibsBySpec
          "//= require a\r\n  //= require lib/b \nvar x;\n//= require a".toList :=
  extractRequiredLibs_eq_spec _ (by decide)

/-! ## Paths in a flat layout -/

theorem splitSep_ne_nil (p : List Char) : splitSep p ≠ [] := by
  cases p with
  | nil => simp [splitSep]
  | cons c cs =>
    rw [splitSep]
    split
    · simp
    · split <;> simp

theorem splitSep_append (a b : List Char) :
    splitSep (a ++ '/' :: b) = splitSep a ++ splitSep b := by
  induction a with
  | nil => simp [splitSep]
  | cons c cs ih =>
    by_cases hc : c = '/'
    · simp [splitSep, hc, ih]
    · rw [List.cons_append, splitSep, if_neg hc, ih, splitSep, if_neg hc]
      cases h : splitSep cs with
      | nil => exact absurd h (splitSep_ne_nil cs)
      | cons w ws => rfl

theorem splitSep_no_sep (w : List Char) (h : '/' ∉ w) : splitSep w = [w] := by
  induction w with
  | nil => rfl
  | cons c cs ih =>
    have hc : c ≠ '/' := fun e => h (by simp [e])
    have hcs : '/' ∉ cs := fun e => h (List.mem_cons_of_mem _ e)
    rw [splitSep, if_neg hc, ih hcs]

theorem mem_splitSep_no_sep (p : List Char) : ∀ w ∈ splitSep p, '/' ∉ w := by
  induction p with
  | nil => simp [splitSep]
  | cons c cs ih =>
    by_cases hc : c = '/'
    · rw [splitSep, if_pos hc]
      intro w hw
      rcases List.mem_cons.mp hw with rfl | hw
      · simp
      · exact ih w hw
    · rw [splitSep, if_neg hc]
      cases h : splitSep cs with
      | nil => exact absurd h (splitSep_ne_nil cs)
      | cons v vs =>
        rw [h] at ih
        intro w hw
        rcases List.mem_cons.mp hw with rfl | hw
        · intro hm
          rcases List.mem_cons.mp hm with e | hm
          · exact hc e.symm
          · exact ih v (List.mem_cons_self _ _) hm
        · exact ih w (List.mem_cons_of_mem _ hw)

theorem splitSep_joinSep (ws : List (List Char)) (hne : ws ≠ []) (h : ∀ w ∈ ws, '/' ∉ w) :
    splitSep (joinSep ws) = ws := by
  induction ws with
  | nil => exact absurd rfl hne
  | cons w rest ih =>
    cases rest with
    | nil => exact splitSep_no_sep w (h w (List.mem_cons_self _ _))
    | cons w' rest' =>
      rw [joinSep, splitSep_append, splitSep_no_sep w (h w (List.mem_cons_self _ _)),
        ih (by simp) (fun v hv => h v (List.mem_cons_of_mem _ hv))]
      rfl

theorem joinSep_append_singleton (xs : List (List Char)) (w : List Char) (hne : xs ≠ []) :
    joinSep (xs ++ [w]) = joinSep xs ++ '/' :: w := by
  induction xs with
  | nil => exact absurd rfl hne
  | cons x rest ih =>
    cases rest with
    | nil => simp [joinSep]
    | cons y rest' =>
      have := ih (by simp)
      simp only [List.cons_append] at this ⊢
      rw [joinSep, this, joinSep]
      simp

theorem cleanComps_append (r : Bool) (xs ys out : List (List Char)) :
    cleanComps r (xs ++ ys) out = cleanComps r ys (cleanComps r xs out) := by
  induction xs generalizing out with
  | nil => rfl
  | cons x rest ih =>
    cases out with
    | nil =>
      simp only [List.cons_append, cleanComps]
      split_ifs <;> exact ih _
    | cons top below =>
      simp only [List.cons_append, cleanComps]
      split_ifs <;> exact ih _

theorem cleanComps_skip (r : Bool) (comp : List Char) (rest out : List (List Char))
    (h : comp = [] ∨ comp = ['.']) : cleanComps r (comp :: rest) out = cleanComps r rest out := by
  cases out <;> simp only [cleanComps, if_pos h]

theorem cleanComps_push (r : Bool) (comp : List Char) (rest out : List (List Char))
    (h : IsComp comp) : cleanComps r (comp :: rest) out = cleanComps r rest (comp :: out) := by
  have h1 : ¬ (comp = [] ∨ comp = ['.']) := fun e => e.elim h.1 h.2.1
  cases out <;> simp only [cleanComps, if_neg h1, if_neg h.2.2.1]

theorem cleanComps_dd_rooted (rest : List (List Char)) :
    cleanComps true (['.', '.'] :: rest) [] = cleanComps true rest [] := by
  simp [cleanComps]

theorem cleanComps_dd_nil (rest : List (List Char)) :
    cleanComps false (['.', '.'] :: rest) [] = cleanComps false rest [['.', '.']] := by
  simp [cleanComps]

theorem cleanComps_dd_dd (r : Bool) (rest below : List (List Char)) (top : List Char)
    (h : top = ['.', '.']) :
    cleanComps r (['.', '.'] :: rest) (top :: below)
      = cleanComps r rest (['.', '.'] :: top :: below) := by
  simp [cleanComps, h]

theorem cleanComps_dd_pop (r : Bool) (rest below : List (List Char)) (top : List Char)
    (h : top ≠ ['.', '.']) :
    cleanComps r (['.', '.'] :: rest) (top :: below) = cleanComps r rest below := by
  simp [cleanComps, h]

theorem cleanComps_comps (r : Bool) :
    ∀ xs out, (∀ w ∈ xs, IsComp w) → cleanComps r xs out = xs.reverse ++ out := by
  intro xs
  induction xs with
  | nil => intro out _; rfl
  | cons x rest ih =>
    intro out h
    rw [cleanComps_push r x rest out (h x (List.mem_cons_self _ _)),
      ih _ (fun w hw => h w (List.mem_cons_of_mem _ hw))]
    simp

theorem cleanComps_dotdots :
    ∀ xs out, (∀ w ∈ xs, w = ['.', '.']) → (∀ w ∈ out, w = ['.', '.']) →
      cleanComps false xs out = xs.reverse ++ out := by
  intro xs
  induction xs with
  | nil => intro out _ _; rfl
  | cons x rest ih =>
    intro out h hout
    have hx : x = ['.', '.'] := h x (List.mem_cons_self _ _)
    have hrest : ∀ w ∈ rest, w = ['.', '.'] := fun w hw => h w (List.mem_cons_of_mem _ hw)
    subst hx
    cases out with
    | nil =>
      rw [cleanComps_dd_nil, ih _ hrest (by simp)]
      simp
    | cons top below =>
      have ht : top = ['.', '.'] := hout top (List.mem_cons_self _ _)
      rw [cleanComps_dd_dd false rest below top ht, ih _ hrest (by
        intro w hw
        rcases List.mem_cons.mp hw with rfl | hw
        · rfl
        · exact hout w hw)]
      simp

theorem cleanComps_reverse (r : Bool) (s : List (List Char)) (h : StackOk r s) :
    cleanComps r s.reverse [] = s := by
  obtain ⟨tops, dds, rfl, htops, hdds, hr⟩ := h
  rw [List.reverse_append, cleanComps_append]
  have h1 : cleanComps r dds.reverse [] = dds := by
    cases r with
    | true => rw [hr rfl]; rfl
    | false =>
      rw [cleanComps_dotdots _ _ (fun w hw => hdds w (List.mem_reverse.mp hw)) (by simp)]
      simp
  rw [h1, cleanComps_comps r _ _ (fun w hw => htops w (List.mem_reverse.mp hw))]
  simp

theorem cleanComps_stackOk (r : Bool) :
    ∀ xs out, (∀ w ∈ xs, '/' ∉ w) → StackOk r out → StackOk r (cleanComps r xs out) := by
  intro xs
  induction xs with
  | nil => intro out _ h; exact h
  | cons x rest ih =>
    intro out hx hout
    have hrest : ∀ w ∈ rest, '/' ∉ w := fun w hw => hx w (List.mem_cons_of_mem _ hw)
    by_cases h1 : x = [] ∨ x = ['.']
    · rw [cleanComps_skip r x rest out h1]
      exact ih out hrest hout
    · by_cases h2 : x = ['.', '.']
      · subst h2
        obtain ⟨tops, dds, rfl, htops, hdds, hr⟩ := hout
        cases tops with
        | nil =>
          cases dds with
          | nil =>
            cases r with
            | true =>
              rw [List.append_nil, cleanComps_dd_rooted]
              exact ih _ hrest ⟨[], [], rfl, by simp, by simp, fun _ => rfl⟩
            | false =>
              rw [List.append_nil, cleanComps_dd_nil]
              exact ih _ hrest ⟨[], [['.', '.']], rfl, by simp, by simp, by simp⟩
          | cons d ds =>
            have hd : d = ['.', '.'] := hdds d (List.mem_cons_self _ _)
            have hrf : r = false := by
              cases r with
              | true => exact absurd (hr rfl) (by simp)
              | false => rfl
            rw [List.nil_append, cleanComps_dd_dd r rest ds d hd]
            refine ih _ hrest ⟨[], ['.', '.'] :: d :: ds, rfl, by simp, ?_, by simp [hrf]⟩
            intro w hw
            rcases List.mem_cons.mp hw with rfl | hw
            · rfl
            · exact hdds w hw
        | cons top tops' =>
          have ht : top ≠ ['.', '.'] := (htops top (List.mem_cons_self _ _)).2.2.1
          rw [List.cons_append, cleanComps_dd_pop r rest (tops' ++ dds) top ht]
          exact ih _ hrest ⟨tops', dds, rfl,
            fun w hw => htops w (List.mem_cons_of_mem _ hw), hdds, hr⟩
      · have hc : IsComp x :=
          ⟨fun e => h1 (Or.inl e), fun e => h1 (Or.inr e), h2, hx x (List.mem_cons_self _ _)⟩
        rw [cleanComps_push r x rest out hc]
        obtain ⟨tops, dds, rfl, htops, hdds, hr⟩ := hout
        refine ih _ hrest ⟨x :: tops, dds, rfl, ?_, hdds, hr⟩
        intro w hw
        rcases List.mem_cons.mp hw with rfl | hw
        · exact hc
        · exact htops w hw

theorem StackOk.no_sep {r : Bool} {s : List (List Char)} (h : StackOk r s) :
    ∀ w ∈ s, '/' ∉ w := by
  obtain ⟨tops, dds, rfl, htops, hdds, _⟩ := h
  intro w hw
  rcases List.mem_append.mp hw with hw | hw
  · exact (htops w hw).2.2.2
  · rw [hdds w hw]; decide

theorem StackOk.ne_nil {r : Bool} {s : List (List Char)} (h : StackOk r s) :
    ∀ w ∈ s, w ≠ [] := by
  obtain ⟨tops, dds, rfl, htops, hdds, _⟩ := h
  intro w hw
  rcases List.mem_append.mp hw with hw | hw
  · exact (htops w hw).1
  · rw [hdds w hw]; decide

theorem StackOk.push {r : Bool} {s : List (List Char)} (h : StackOk r s) {w : List Char}
    (hw : IsComp w) : StackOk r (w :: s) := by
  obtain ⟨tops, dds, rfl, htops, hdds, hr⟩ := h
  refine ⟨w :: tops, dds, rfl, ?_, hdds, hr⟩
  intro v hv
  rcases List.mem_cons.mp hv with rfl | hv
  · exact hw
  · exact htops v hv

theorem render_true (s : List (List Char)) : render true s = '/' :: joinSep s.reverse := by
  simp [render]

theorem render_false_cons (top : List Char) (below : List (List Char)) :
    render false (top :: below) = joinSep (top :: below).reverse := by
  simp [render]

theorem render_push (r : Bool) (w top : List Char) (below : List (List Char)) :
    render r (w :: top :: below) = render r (top :: below) ++ '/' :: w := by
  have hne : (top :: below).reverse ≠ [] := by simp
  cases r with
  | true =>
    rw [render_true, render_true, List.reverse_cons, joinSep_append_singleton _ _ hne]
    rfl
  | false =>
    rw [render_false_cons, render_false_cons, List.reverse_cons,
      joinSep_append_singleton _ _ hne]

/-- Cleaning what `render` built gives the components back. -/
theorem cleanComps_splitSep_render (r : Bool) (s : List (List Char)) (h : StackOk r s) :
    cleanComps r (splitSep (render r s)) [] = s := by
  have hns : ∀ w ∈ s.reverse, '/' ∉ w := fun w hw => h.no_sep w (List.mem_reverse.mp hw)
  cases s with
  | nil =>
    cases r with
    | true => simp [render, joinSep, splitSep, cleanComps]
    | false => simp [render, joinSep, splitSep, cleanComps]
  | cons top below =>
    have hne : (top :: below).reverse ≠ [] := by simp
    cases r with
    | true =>
      have e : render true (top :: below) = [] ++ '/' :: joinSep (top :: below).reverse := by
        simp [render]
      rw [e, splitSep_append, splitSep_joinSep _ hne hns]
      have : splitSep [] = [[]] := rfl
      rw [this, List.singleton_append, cleanComps_skip _ _ _ _ (Or.inl rfl)]
      exact cleanComps_reverse true _ h
    | false =>
      have e : render false (top :: below) = joinSep (top :: below).reverse := by
        simp [render]
      rw [e, splitSep_joinSep _ hne hns]
      exact cleanComps_reverse false _ h

theorem render_ne_nil (r : Bool) (s : List (List Char)) (h : StackOk r s) : render r s ≠ [] := by
  cases r with
  | true => simp [render]
  | false =>
    cases s with
    | nil => simp [render]
    | cons top below =>
      have hne : (top :: below).reverse ≠ [] := by simp
      have e : render false (top :: below) = joinSep (top :: below).reverse := by
        simp [render]
      rw [e]
      intro hj
      have := splitSep_joinSep _ hne (fun w hw => h.no_sep w (List.mem_reverse.mp hw))
      rw [hj] at this
      have h2 : [] ∈ (top :: below).reverse := by rw [← this]; simp [splitSep]
      exact h.ne_nil [] (List.mem_reverse.mp h2) rfl

/-- The first character of a rendered path is a separator exactly for a rooted path. -/
theorem render_head (r : Bool) (s : List (List Char)) (h : StackOk r s) :
    ∃ c cs, render r s = c :: cs ∧ (decide (c = '/') = r) := by
  cases r with
  | true => exact ⟨'/', joinSep s.reverse, by simp [render], by simp⟩
  | false =>
    cases hs : render false s with
    | nil => exact absurd hs (render_ne_nil false s h)
    | cons c cs =>
      refine ⟨c, cs, rfl, ?_⟩
      simp only [decide_eq_false_iff_not]
      intro hc
      subst hc
      cases s with
      | nil => simp [render] at hs
      | cons top below =>
        have hne : (top :: below).reverse ≠ [] := by simp
        have e : render false (top :: below) = joinSep (top :: below).reverse := by
          simp [render]
        rw [e] at hs
        have := splitSep_joinSep _ hne (fun w hw => h.no_sep w (List.mem_reverse.mp hw))
        rw [hs, splitSep, if_pos rfl] at this
        have h2 : [] ∈ (top :: below).reverse := by rw [← this]; simp
        exact h.ne_nil [] (List.mem_reverse.mp h2) rfl

theorem clean_eq_render (r : Bool) (c : Char) (cs : List Char) (hc : decide (c = '/') = r) :
    clean (c :: cs) = render r (cleanComps r (splitSep (c :: cs)) []) := by
  subst hc
  by_cases h : c = '/'
  · simp [clean, render, h]
  · simp [clean, render, h]

theorem clean_render_sep (r : Bool) (s : List (List Char)) (h : StackOk r s)
    (b : List Char) (hb : '/' ∉ b) :
    clean (render r s ++ '/' :: b) = render r (cleanComps r [b] s) := by
  obtain ⟨c, cs, hcs, hc⟩ := render_head r s h
  have e : render r s ++ '/' :: b = c :: (cs ++ '/' :: b) := by rw [hcs]; rfl
  rw [e, clean_eq_render r c _ hc, ← e, splitSep_append, cleanComps_append,
    cleanComps_splitSep_render r s h, splitSep_no_sep b hb]

/-- Joining a cleaned directory and a proper component puts the component on top. -/
theorem join_render (r : Bool) (s : List (List Char)) (h : StackOk r s)
    (w : List Char) (hw : IsComp w) : join (render r s) w = render r (w :: s) := by
  rw [join, if_pos (render_ne_nil r s h), clean_render_sep r s h w hw.2.2.2,
    cleanComps_push r w [] s hw]
  rfl

theorem upToLastSep_append (a w : List Char) (hw : '/' ∉ w) :
    upToLastSep (a ++ '/' :: w) = a ++ ['/'] := by
  unfold upToLastSep
  have h1 : (a ++ '/' :: w).reverse = w.reverse ++ '/' :: a.reverse := by simp
  rw [h1, List.dropWhile_append_of_pos]
  · rw [List.dropWhile_cons_of_neg (by simp)]
    simp
  · intro c hc
    have : c ≠ '/' := fun e => hw (by rw [← e]; exact List.mem_reverse.mp hc)
    simpa using this

theorem upToLastSep_no_sep (w : List Char) (hw : '/' ∉ w) : upToLastSep w = [] := by
  unfold upToLastSep
  have : List.dropWhile (fun c => decide (c ≠ '/')) w.reverse = [] := by
    rw [List.dropWhile_eq_nil_iff]
    intro c hc
    have : c ≠ '/' := fun e => hw (by rw [← e]; exact List.mem_reverse.mp hc)
    simpa using this
  rw [this]; rfl

/-- The directory of a cleaned directory with a proper component on top is that directory. -/
theorem dir_render (r : Bool) (s : List (List Char)) (h : StackOk r s)
    (w : List Char) (hw : IsComp w) : dir (render r (w :: s)) = render r s := by
  have hskip : clean (render r s ++ ['/']) = render r s := by
    rw [clean_render_sep r s h [] (by simp), cleanComps_skip _ _ _ _ (Or.inl rfl)]
    rfl
  cases s with
  | nil =>
    cases r with
    | true =>
      have e : render true [w] = [] ++ '/' :: w := by simp [render, joinSep]
      rw [dir, e, upToLastSep_append _ _ hw.2.2.2]
      simp [clean, render, splitSep, cleanComps, joinSep]
    | false =>
      have e : render false [w] = w := by
        simp [render, joinSep]
      rw [dir, e, upToLastSep_no_sep _ hw.2.2.2]
      simp [clean, render]
  | cons top below =>
    rw [dir, render_push, upToLastSep_append _ _ hw.2.2.2, hskip]

theorem render_top_injective (r : Bool) (s : List (List Char)) (w w' : List Char)
    (h : render r (w :: s) = render r (w' :: s)) : w = w' := by
  cases s with
  | nil =>
    cases r with
    | true => simpa [render, joinSep] using h
    | false => simpa [render, joinSep] using h
  | cons top below =>
    rw [render_push, render_push] at h
    simpa using h

theorem isCleanDir_clean (p : List Char) : IsCleanDir (clean p) := by
  cases p with
  | nil => exact ⟨false, [], ⟨[], [], rfl, by simp, by simp, by simp⟩, by simp [clean, render]⟩
  | cons c cs =>
    refine ⟨decide (c = '/'), _, ?_, clean_eq_render _ c cs rfl⟩
    exact cleanComps_stackOk _ _ _ (mem_splitSep_no_sep _)
      ⟨[], [], rfl, by simp, by simp, by simp⟩

theorem isCleanDir_dir (f : List Char) : IsCleanDir (dir f) := isCleanDir_clean _

theorem isComp_js (n : List Char) (h : '/' ∉ n) : IsComp (n ++ jsExt) := by
  have hl : 3 ≤ (n ++ jsExt).length := by simp [jsExt]
  refine ⟨?_, ?_, ?_, ?_⟩
  · intro e; rw [e] at hl; simp at hl
  · intro e; rw [e] at hl; simp at hl
  · intro e; rw [e] at hl; simp at hl
  · intro hm
    rcases List.mem_append.mp hm with hm | hm
    · exact h hm
    · revert hm; decide

/-- In a cleaned directory the file of a plain name lies in that directory. -/
theorem dir_join (D n : List Char) (hD : IsCleanDir D) (hn : '/' ∉ n) :
    dir (join D (n ++ jsExt)) = D := by
  obtain ⟨r, s, hs, rfl⟩ := hD
  rw [join_render r s hs _ (isComp_js n hn), dir_render r s hs _ (isComp_js n hn)]

/-- In a cleaned directory different plain names are different files. -/
theorem join_injective (D n m : List Char) (hD : IsCleanDir D) (hn : '/' ∉ n) (hm : '/' ∉ m)
    (h : join D (n ++ jsExt) = join D (m ++ jsExt)) : n = m := by
  obtain ⟨r, s, hs, rfl⟩ := hD
  rw [join_render r s hs _ (isComp_js n hn), join_render r s hs _ (isComp_js m hm)] at h
  exact List.append_cancel_right (render_top_injective r s _ _ h)

/-! ## Depth-first order in a flat, acyclic layout -/

theorem orderedFrom_append (E : Env) (D : List Char) :
    ∀ a pre b, orderedFrom E D pre (a ++ b)
      ↔ orderedFrom E D pre a ∧ orderedFrom E D (pre ++ a) b := by
  intro a
  induction a with
  | nil => intro pre b; simp [orderedFrom]
  | cons x rest ih =>
    intro pre b
    rw [List.cons_append, orderedFrom, orderedFrom, ih]
    simp only [List.append_assoc, List.singleton_append, and_assoc]

theorem orderedFrom_split (E : Env) (D : List Char) (pre a b : List (List Char))
    (n : List Char) (h : orderedFrom E D pre (a ++ n :: b)) :
    ∀ m ∈ namesDeps E D n, m ∈ pre ++ a := by
  rw [orderedFrom_append] at h
  exact h.2.1

theorem orderedFrom_closed (E : Env) (D : List Char) (ns : List (List Char))
    (h : orderedFrom E D [] ns) : ∀ x ∈ ns, ∀ y, NDep E D x y → y ∈ ns := by
  intro x hx y hy
  obtain ⟨a, b, rfl⟩ := List.append_of_mem hx
  have := orderedFrom_split E D [] a b x h y hy
  simp only [List.nil_append] at this
  exact List.mem_append_left _ this

theorem reach_closed (E : Env) (D : List Char) (ns : List (List Char))
    (h : orderedFrom E D [] ns) {x y : List Char} (hx : x ∈ ns)
    (hr : Relation.ReflTransGen (NDep E D) x y) : y ∈ ns := by
  induction hr with
  | refl => exact hx
  | tail _ hstep ih => exact orderedFrom_closed E D ns h _ ih _ hstep

theorem contentOf_isSome (E : Env) (f : List Char) (h : requiredLibsOf E f ≠ none) :
    ∃ c, contentOf E f = some c := by
  unfold requiredLibsOf at h
  unfold contentOf
  cases ho : getOverrideIfFound E f with
  | some c => exact ⟨c, rfl⟩
  | none =>
    rw [ho] at h
    cases hf : find E.files f with
    | none => simp [hf] at h
    | some c => exact ⟨c, rfl⟩

theorem handleLibsLog_flat (E : Env) (D : List Char) (hD : IsCleanDir D)
    (h : List Char → Trace → Outcome Trace)
    (v : List Char → List (List Char) → List (List Char)) (hh : HandlerOk E D h v) :
    ∀ L t ns,
      (∀ l ∈ L, ∀ m, Relation.ReflTransGen (NDep E D) l m → GoodName E D m) →
      (∀ l ∈ L, ∀ m, Relation.ReflTransGen (NDep E D) l m →
        ¬ Relation.TransGen (NDep E D) m m) →
      (∀ s ∈ t.seen, s ∉ ns → ∀ l ∈ L, ¬ Relation.ReflTransGen (NDep E D) l s) →
      TraceInv E D t ns →
      handleLibsLog E h D L t = .fuelOut ∨
      ∃ t' new, handleLibsLog E h D L t = .ret none t' ∧ TraceInv E D t' (ns ++ new) ∧
        (∀ x, x ∈ t'.seen ↔ x ∈ t.seen ∨ x ∈ new) ∧
        (∀ m ∈ new, ∃ l ∈ L, Relation.ReflTransGen (NDep E D) l m) ∧
        (∀ l ∈ L, ∀ m, Relation.ReflTransGen (NDep E D) l m → m ∈ ns ++ new) ∧
        (ns ++ new).map (fileOf D) = postOrderAll v (L.map (fileOf D)) (ns.map (fileOf D)) := by
  intro L
  induction L with
  | nil =>
    intro t ns _ _ _ hinv
    right
    exact ⟨t, [], rfl, by simpa using hinv, by simp, by simp, by simp, by simp [postOrderAll]⟩
  | cons lib L ih =>
    intro t ns hgood hacyc hstack hinv
    have hgoodL : ∀ l ∈ L, ∀ m, Relation.ReflTransGen (NDep E D) l m → GoodName E D m :=
      fun l hl => hgood l (List.mem_cons_of_mem _ hl)
    have hacycL : ∀ l ∈ L, ∀ m, Relation.ReflTransGen (NDep E D) l m →
        ¬ Relation.TransGen (NDep E D) m m :=
      fun l hl => hacyc l (List.mem_cons_of_mem _ hl)
    by_cases hs : lib ∈ t.seen
    · rw [handleLibsLog_seen E h D lib L t hs]
      have hlib : lib ∈ ns := by
        by_contra hn
        exact hstack lib hs hn lib (List.mem_cons_self _ _) Relation.ReflTransGen.refl
      rcases ih t ns hgoodL hacycL
        (fun s hs1 hs2 l hl => hstack s hs1 hs2 l (List.mem_cons_of_mem _ hl)) hinv with
        hout | ⟨t', new, hr, hinv', hseen, hnew, hall, hspec⟩
      · exact Or.inl hout
      · right
        refine ⟨t', new, hr, hinv', hseen, ?_, ?_, ?_⟩
        · intro m hm
          obtain ⟨l, hl, hlm⟩ := hnew m hm
          exact ⟨l, List.mem_cons_of_mem _ hl, hlm⟩
        · intro l hl m hlm
          rcases List.mem_cons.mp hl with rfl | hl
          · exact List.mem_append_left _ (reach_closed E D ns hinv.ordered hlib hlm)
          · exact hall l hl m hlm
        · rw [List.map_cons, postOrderAll, if_pos (List.mem_map_of_mem _ hlib)]
          exact hspec
    · have hlibgood := hgood lib (List.mem_cons_self _ _)
      have hlibacyc := hacyc lib (List.mem_cons_self _ _)
      have hlibns : lib ∉ ns := fun hn => hs (hinv.sub lib hn)
      have hinv0 : TraceInv E D ⟨lib :: t.seen, t.emitted⟩ ns :=
        ⟨hinv.files, fun x hx => List.mem_cons_of_mem _ (hinv.sub x hx), hinv.plain,
          hinv.nodup, hinv.ordered⟩
      have hstack0 : ∀ s ∈ lib :: t.seen, s ∉ ns → ¬ Relation.TransGen (NDep E D) lib s := by
        intro s hs1 hs2 htg
        rcases List.mem_cons.mp hs1 with rfl | hs1
        · exact hlibacyc s Relation.ReflTransGen.refl htg
        · exact hstack s hs1 hs2 lib (List.mem_cons_self _ _) htg.to_reflTransGen
      rcases hh lib ⟨lib :: t.seen, t.emitted⟩ ns hlibgood hlibacyc hstack0 hinv0 with
        hout | ⟨t1, new1, hr1, hinv1, hseen1, hnew1, hall1, hspec1⟩
      · exact Or.inl (handleLibsLog_fuelOut E h D lib L t hs hout)
      · obtain ⟨content, hcont⟩ :=
          contentOf_isSome E _ (hlibgood lib Relation.ReflTransGen.refl).2
        rw [handleLibsLog_ok E h D lib L t hs t1 content hr1 hcont]
        have hlibnew1 : lib ∉ new1 :=
          fun hn => hlibacyc lib Relation.ReflTransGen.refl (hnew1 lib hn)
        have hdeps : ∀ m ∈ namesDeps E D lib, m ∈ ns ++ new1 :=
          fun m hm => hall1 m (Relation.TransGen.single hm)
        have hinv2 : TraceInv E D ⟨t1.seen, t1.emitted ++ [(join D (lib ++ jsExt), content)]⟩
            (ns ++ new1 ++ [lib]) := by
          refine ⟨?_, ?_, ?_, ?_, ?_⟩
          · simp only [List.map_append, hinv1.files, List.map_cons, List.map_nil]
            rfl
          · intro x hx
            rcases List.mem_append.mp hx with hx | hx
            · exact hinv1.sub x hx
            · simp only [List.mem_singleton] at hx
              subst hx
              exact (hseen1 x).mpr (Or.inl (List.mem_cons_self _ _))
          · intro x hx
            rcases List.mem_append.mp hx with hx | hx
            · exact hinv1.plain x hx
            · simp only [List.mem_singleton] at hx
              subst hx
              exact (hlibgood x Relation.ReflTransGen.refl).1
          · rw [List.nodup_append]
            refine ⟨hinv1.nodup, List.nodup_singleton _, ?_⟩
            intro x hx hx'
            simp only [List.mem_singleton] at hx'
            subst hx'
            rcases List.mem_append.mp hx with hx | hx
            · exact hlibns hx
            · exact hlibnew1 hx
          · rw [orderedFrom_append]
            refine ⟨hinv1.ordered, ?_, trivial⟩
            simpa using hdeps
        have hstack2 : ∀ s ∈ t1.seen, s ∉ ns ++ new1 ++ [lib] →
            ∀ l ∈ L, ¬ Relation.ReflTransGen (NDep E D) l s := by
          intro s hs1 hs2 l hl
          simp only [List.mem_append, List.mem_singleton, not_or] at hs2
          rcases (hseen1 s).mp hs1 with hs3 | hs3
          · rcases List.mem_cons.mp hs3 with rfl | hs3
            · exact absurd rfl hs2.2
            · exact hstack s hs3 hs2.1.1 l (List.mem_cons_of_mem _ hl)
          · exact absurd hs3 hs2.1.2
        rcases ih ⟨t1.seen, t1.emitted ++ [(join D (lib ++ jsExt), content)]⟩
            (ns ++ new1 ++ [lib]) hgoodL hacycL hstack2 hinv2 with
          hout | ⟨t', new2, hr, hinv', hseen, hnew, hall, hspec⟩
        · exact Or.inl hout
        · right
          have hfresh : fileOf D lib ∉ ns.map (fileOf D) := by
            intro hmem
            obtain ⟨x, hx, hxe⟩ := List.mem_map.mp hmem
            have := join_injective D x lib hD (hinv.plain x hx)
              (hlibgood lib Relation.ReflTransGen.refl).1 hxe
            exact hlibns (this ▸ hx)
          refine ⟨t', new1 ++ [lib] ++ new2, hr, by simpa [List.append_assoc] using hinv',
            ?_, ?_, ?_, ?_⟩
          · intro x
            rw [hseen x, hseen1 x]
            simp only [List.mem_cons, List.mem_append, List.mem_singleton]
            tauto
          · intro m hm
            simp only [List.mem_append, List.mem_singleton] at hm
            rcases hm with (hm | rfl) | hm
            · exact ⟨lib, List.mem_cons_self _ _, (hnew1 m hm).to_reflTransGen⟩
            · exact ⟨m, List.mem_cons_self _ _, Relation.ReflTransGen.refl⟩
            · obtain ⟨l, hl, hlm⟩ := hnew m hm
              exact ⟨l, List.mem_cons_of_mem _ hl, hlm⟩
          · intro l hl m hlm
            rcases List.mem_cons.mp hl with rfl | hl
            · rcases Relation.reflTransGen_iff_eq_or_transGen.mp hlm with rfl | htg
              · simp
              · have := hall1 m htg
                simp only [List.mem_append] at this ⊢
                tauto
            · have := hall l hl m hlm
              simp only [List.mem_append, List.mem_singleton] at this ⊢
              tauto
          · rw [List.map_cons, postOrderAll, if_neg hfresh, ← hspec1]
            simpa [List.append_assoc] using hspec

/-- In a cleaned directory `handleFile` is a handler as `HandlerOk` describes. -/
theorem handleFileLog_flat (E : Env) (D : List Char) (hD : IsCleanDir D) :
    ∀ fuel, HandlerOk E D (handleFileLog E fuel) (postOrder E fuel) := by
  intro fuel
  induction fuel with
  | zero => intro n t ns _ _ _ _; exact Or.inl rfl
  | succ fuel ih =>
    intro n t ns hgood hacyc hstack hinv
    have hn := hgood n Relation.ReflTransGen.refl
    rw [handleFileLog]
    cases hq : requiredLibsOf E (fileOf D n) with
    | none => exact absurd hq hn.2
    | some libs =>
      have hdeps : namesDeps E D n = libs := by simp only [namesDeps, hq]
      have hdir : dir (fileOf D n) = D := dir_join D n hD hn.1
      have hstep : ∀ l ∈ libs, NDep E D n l := fun l hl => by
        show l ∈ namesDeps E D n
        rw [hdeps]; exact hl
      simp only [hdir]
      rcases handleLibsLog_flat E D hD _ _ ih libs t ns
        (fun l hl m hlm => hgood m (Relation.ReflTransGen.head (hstep l hl) hlm))
        (fun l hl m hlm => hacyc m (Relation.ReflTransGen.head (hstep l hl) hlm))
        (fun s hs1 hs2 l hl hls => hstack s hs1 hs2 (Relation.TransGen.head' (hstep l hl) hls))
        hinv with hout | ⟨t', new, hr, hinv', hseen, hnew, hall, hspec⟩
      · exact Or.inl hout
      · right
        refine ⟨t', new, hr, hinv', hseen, ?_, ?_, ?_⟩
        · intro m hm
          obtain ⟨l, hl, hlm⟩ := hnew m hm
          exact Relation.TransGen.head' (hstep l hl) hlm
        · intro m hm
          obtain ⟨l, hnl, hlm⟩ := Relation.TransGen.head'_iff.mp hm
          have hl : l ∈ libs := by rw [← hdeps]; exact hnl
          exact hall l hl m hlm
        · rw [hspec, postOrder]
          have hdf : depFiles E (fileOf D n) = libs.map (fileOf D) := by
            unfold depFiles
            rw [hq, hdir]
            rfl
          rw [hdf]

theorem dir_fileOf (D n : List Char) (hD : IsCleanDir D) (hn : '/' ∉ n) :
    dir (fileOf D n) = D := dir_join D n hD hn

theorem depFiles_fileOf (E : Env) (D n : List Char) (hD : IsCleanDir D) (hn : '/' ∉ n) :
    depFiles E (fileOf D n) = (namesDeps E D n).map (fileOf D) := by
  unfold depFiles namesDeps
  cases requiredLibsOf E (fileOf D n) with
  | none => rfl
  | some libs =>
    rw [dir_fileOf D n hD hn]
    rfl

theorem depFiles_entry (E : Env) (entry : List Char) (L : List (List Char))
    (h : requiredLibsOf E entry = some L) : depFiles E entry = L.map (fileOf (dir entry)) := by
  unfold depFiles
  rw [h]
  rfl

/-- Names reachable from the entry's directives stand for files reachable from the
entry, and have no separator when no directive of a reachable file has one. -/
theorem reach_files (E : Env) (entry : List Char) (L : List (List Char))
    (hL : requiredLibsOf E entry = some L)
    (hflat : ∀ g, Relation.ReflTransGen (Requires E) entry g →
      ∀ libs, requiredLibsOf E g = some libs → ∀ n ∈ libs, '/' ∉ n)
    {l m : List Char} (hl : l ∈ L)
    (hr : Relation.ReflTransGen (NDep E (dir entry)) l m) :
    Relation.TransGen (Requires E) entry (fileOf (dir entry) m) ∧ '/' ∉ m := by
  induction hr with
  | refl =>
    refine ⟨Relation.TransGen.single ?_, hflat entry Relation.ReflTransGen.refl L hL l hl⟩
    show _ ∈ depFiles E entry
    rw [depFiles_entry E entry L hL]
    exact List.mem_map_of_mem _ hl
  | @tail b c _ hstep ih =>
    obtain ⟨hb, hbp⟩ := ih
    have hbc : Requires E (fileOf (dir entry) b) (fileOf (dir entry) c) := by
      show _ ∈ depFiles E _
      rw [depFiles_fileOf E _ b (isCleanDir_dir entry) hbp]
      exact List.mem_map_of_mem _ hstep
    refine ⟨Relation.TransGen.tail hb hbc, ?_⟩
    have hc : c ∈ namesDeps E (dir entry) b := hstep
    unfold namesDeps at hc
    cases hq : requiredLibsOf E (fileOf (dir entry) b) with
    | none => simp [hq] at hc
    | some libs =>
      simp only [hq] at hc
      exact hflat _ hb.to_reflTransGen libs hq c hc

/-- Files reachable from the entry are the files of names reachable from the
entry's directives. -/
theorem files_reach (E : Env) (entry : List Char) (L : List (List Char))
    (hL : requiredLibsOf E entry = some L)
    (hflat : ∀ g, Relation.ReflTransGen (Requires E) entry g →
      ∀ libs, requiredLibsOf E g = some libs → ∀ n ∈ libs, '/' ∉ n)
    {g : List Char} (hg : Relation.TransGen (Requires E) entry g) :
    ∃ l ∈ L, ∃ m, Relation.ReflTransGen (NDep E (dir entry)) l m ∧ g = fileOf (dir entry) m := by
  induction hg with
  | single h =>
    have h' : _ ∈ depFiles E entry := h
    rw [depFiles_entry E entry L hL] at h'
    obtain ⟨l, hl, rfl⟩ := List.mem_map.mp h'
    exact ⟨l, hl, l, Relation.ReflTransGen.refl, rfl⟩
  | tail _ hstep ih =>
    obtain ⟨l, hl, m, hlm, rfl⟩ := ih
    have hmp := (reach_files E entry L hL hflat hl hlm).2
    have h' : _ ∈ depFiles E (fileOf (dir entry) m) := hstep
    rw [depFiles_fileOf E _ m (isCleanDir_dir entry) hmp] at h'
    obtain ⟨m', hm', rfl⟩ := List.mem_map.mp h'
    exact ⟨l, hl, m', Relation.ReflTransGen.tail hlm hm', rfl⟩

/-- A cycle of names is a cycle of files. -/
theorem cycle_files (E : Env) (D : List Char) (hD : IsCleanDir D) {m y : List Char}
    (hplain : ∀ x, Relation.ReflTransGen (NDep E D) m x → '/' ∉ x)
    (h : Relation.TransGen (NDep E D) m y) :
    Relation.TransGen (Requires E) (fileOf D m) (fileOf D y) := by
  induction h with
  | single h =>
    apply Relation.TransGen.single
    show _ ∈ depFiles E _
    rw [depFiles_fileOf E D m hD (hplain m Relation.ReflTransGen.refl)]
    exact List.mem_map_of_mem _ h
  | @tail b c hmb hstep ih =>
    refine Relation.TransGen.tail ih ?_
    show _ ∈ depFiles E _
    rw [depFiles_fileOf E D b hD (hplain b hmb.to_reflTransGen)]
    exact List.mem_map_of_mem _ hstep

theorem requiredLibsOf_eq_map (E : Env) (f : List Char) :
    requiredLibsOf E f = (contentOf E f).map extractRequiredLibs := by
  unfold requiredLibsOf contentOf
  cases getOverrideIfFound E f with
  | some c => rfl
  | none => cases find E.files f <;> rfl

theorem ordered_before (E : Env) (D : List Char) (a b : List (List Char)) (n : List Char)
    (h : orderedFrom E D [] (a ++ n :: b)) {m : List Char}
    (hm : Relation.TransGen (NDep E D) n m) : m ∈ a := by
  induction hm with
  | single hs => simpa using orderedFrom_split E D [] a b n h _ hs
  | @tail x y _ hs ih =>
    obtain ⟨a1, a2, rfl⟩ := List.append_of_mem ih
    have h' : orderedFrom E D [] (a1 ++ x :: (a2 ++ n :: b)) := by
      simpa [List.append_assoc] using h
    have := orderedFrom_split E D [] a1 _ x h' y hs
    simp only [List.nil_append] at this
    exact List.mem_append_left _ this

theorem files_from (E : Env) (D : List Char) (hD : IsCleanDir D) {n g : List Char}
    (hplain : ∀ x, Relation.ReflTransGen (NDep E D) n x → '/' ∉ x)
    (h : Relation.TransGen (Requires E) (fileOf D n) g) :
    ∃ m, Relation.TransGen (NDep E D) n m ∧ g = fileOf D m := by
  induction h with
  | single hs =>
    have h' : _ ∈ depFiles E (fileOf D n) := hs
    rw [depFiles_fileOf E D n hD (hplain n Relation.ReflTransGen.refl)] at h'
    obtain ⟨m, hm, rfl⟩ := List.mem_map.mp h'
    exact ⟨m, Relation.TransGen.single hm, rfl⟩
  | tail _ hs ih =>
    obtain ⟨m, hnm, rfl⟩ := ih
    have h' : _ ∈ depFiles E (fileOf D m) := hs
    rw [depFiles_fileOf E D m hD (hplain m hnm.to_reflTransGen)] at h'
    obtain ⟨m', hm', rfl⟩ := List.mem_map.mp h'
    exact ⟨m', Relation.TransGen.tail hnm hm', rfl⟩

/-- C10 (flat layout): let no directive of a file reachable from the entry contain
a separator, let every reachable file exist (as an override or in the file system),
and let no reachable file require itself, directly or through others.  Then
`newBundle` succeeds; the buffer is the banner followed by the logged writes; every
write carries the content of its file; no file is written twice; the written files
are just the files reachable from the entry by one directive or more; and whatever a
written file requires, directly or through others, is written before it.  The
sequence of written files is the depth-first post-order of first encounter
`postOrder` of the entry's requirements. -/
theorem flat_layout (E : Env) (j : JsBundler) (entry : List Char)
    (hflat : ∀ g, Relation.ReflTransGen (Requires E) entry g →
      ∀ libs, requiredLibsOf E g = some libs → ∀ n ∈ libs, '/' ∉ n)
    (hexists : ∀ g, Relation.ReflTransGen (Requires E) entry g → contentOf E g ≠ none)
    (hacyc : ∀ g, Relation.ReflTransGen (Requires E) entry g →
      ¬ Relation.TransGen (Requires E) g g) :
    ∃ t, newBundleLog E entry = .ret none t ∧
      newBundle E j entry = .ret none ⟨t.seen, banner ++ logBytes t.emitted⟩ ∧
      (∀ p ∈ t.emitted, contentOf E p.1 = some p.2) ∧
      (t.emitted.map Prod.fst).Nodup ∧
      (∀ g, g ∈ t.emitted.map Prod.fst ↔ Relation.TransGen (Requires E) entry g) ∧
      (∀ pre g post, t.emitted.map Prod.fst = pre ++ g :: post →
        ∀ h, Relation.TransGen (Requires E) g h → h ∈ pre) ∧
      t.emitted.map Prod.fst = postOrder E (fuelBound E) entry [] := by
  have hreq : ∀ g, Relation.ReflTransGen (Requires E) entry g → requiredLibsOf E g ≠ none := by
    intro g hg hn
    rw [requiredLibsOf_eq_map] at hn
    exact hexists g hg (by simpa using hn)
  obtain ⟨L, hL⟩ : ∃ L, requiredLibsOf E entry = some L :=
    Option.ne_none_iff_exists'.mp (hreq entry Relation.ReflTransGen.refl)
  have hD := isCleanDir_dir entry
  have hplain : ∀ l ∈ L, ∀ m, Relation.ReflTransGen (NDep E (dir entry)) l m → '/' ∉ m :=
    fun l hl m hlm => (reach_files E entry L hL hflat hl hlm).2
  have hfile : ∀ l ∈ L, ∀ m, Relation.ReflTransGen (NDep E (dir entry)) l m →
      Relation.TransGen (Requires E) entry (fileOf (dir entry) m) :=
    fun l hl m hlm => (reach_files E entry L hL hflat hl hlm).1
  have hgood : ∀ l ∈ L, ∀ m, Relation.ReflTransGen (NDep E (dir entry)) l m →
      GoodName E (dir entry) m :=
    fun l hl m hlm => ⟨hplain l hl m hlm, hreq _ (hfile l hl m hlm).to_reflTransGen⟩
  have hacycN : ∀ l ∈ L, ∀ m, Relation.ReflTransGen (NDep E (dir entry)) l m →
      ¬ Relation.TransGen (NDep E (dir entry)) m m :=
    fun l hl m hlm htg => hacyc _ (hfile l hl m hlm).to_reflTransGen
      (cycle_files E _ hD (fun x hx => hplain l hl x (hlm.trans hx)) htg)
  obtain ⟨err, t, hr, _⟩ := handleFileLog_ret E (fuelBound E) entry ⟨[], []⟩
    (Nat.lt_succ_of_le (unseenCount_le E []))
  have hrun : newBundleLog E entry = .ret err t := hr
  unfold fuelBound at hr
  rw [handleFileLog] at hr
  simp only [hL] at hr
  rcases handleLibsLog_flat E (dir entry) hD _ _ (handleFileLog_flat E _ hD _) L ⟨[], []⟩ []
    hgood hacycN (by simp) ⟨rfl, by simp, by simp, List.nodup_nil, trivial⟩ with
    hout | ⟨t', new, hr', hinv, _, hnew, hall, hspec⟩
  · rw [hr] at hout; cases hout
  · rw [hr] at hr'
    simp only [Outcome.ret.injEq] at hr'
    obtain ⟨rfl, rfl⟩ := hr'
    simp only [List.nil_append, List.map_nil] at hinv hall hspec
    have hnewplain : ∀ m ∈ new, '/' ∉ m := by
      intro m hm
      obtain ⟨l, hl, hlm⟩ := hnew m hm
      exact hplain l hl m hlm
    refine ⟨t, hrun, ?_, ?_, ?_, ?_, ?_, ?_⟩
    · rw [newBundle_toBundler, hrun]; rfl
    · exact handleFileLog_content E _ _ _ _ _ hrun (by simp)
    · rw [hinv.files]
      exact List.Nodup.map_on
        (fun x hx y hy hxy => join_injective _ x y hD (hnewplain x hx) (hnewplain y hy) hxy)
        hinv.nodup
    · intro g
      rw [hinv.files]
      constructor
      · intro hg
        obtain ⟨m, hm, rfl⟩ := List.mem_map.mp hg
        obtain ⟨l, hl, hlm⟩ := hnew m hm
        exact hfile l hl m hlm
      · intro hg
        obtain ⟨l, hl, m, hlm, rfl⟩ := files_reach E entry L hL hflat hg
        exact List.mem_map_of_mem _ (hall l hl m hlm)
    · intro pre g post hsplit h hgh
      rw [hinv.files] at hsplit
      obtain ⟨a, b', rfl, rfl, hb⟩ := List.map_eq_append_iff.mp hsplit
      obtain ⟨n, b, rfl, rfl, _⟩ := List.map_eq_cons_iff.mp hb
      obtain ⟨l, hl, hln⟩ := hnew n (by simp)
      obtain ⟨m, hnm, rfl⟩ := files_from E _ hD
        (fun x hx => hplain l hl x (hln.trans hx)) hgh
      exact List.mem_map_of_mem _ (ordered_before E _ a b n hinv.ordered hnm)
    · rw [hinv.files, hspec]
      show _ = postOrder E ((allLibs E).length + 1) entry []
      rw [postOrder, depFiles_entry E entry L hL]

theorem reachable_mem (E : Env) (entry : List Char) (S : List (List Char))
    (hentry : entry ∈ S) (hclosed : ∀ f ∈ S, ∀ g ∈ depFiles E f, g ∈ S) {g : List Char}
    (h : Relation.ReflTransGen (Requires E) entry g) : g ∈ S := by
  induction h with
  | refl => exact hentry
  | tail _ hs ih => exact hclosed _ ih _ hs

theorem requires_rank (E : Env) (order : List (List Char)) (hov : E.overrides = [])
    (h : ranksDecrease E order) {f g : List Char} (hfg : Requires E f g) :
    rankIn order g < rankIn order f := by
  have hg : g ∈ depFiles E f := hfg
  have ho : getOverrideIfFound E f = none := by
    simp only [getOverrideIfFound, hov, find]
  cases hf : find E.files f with
  | none => simp [depFiles, requiredLibsOf, ho, hf] at hg
  | some c => exact h (f, c) (find_mem hf) g hg

/-- With ranks that decrease along every directive no file requires itself, directly
or through others. -/
theorem acyclic_of_ranks (E : Env) (order : List (List Char)) (hov : E.overrides = [])
    (h : ranksDecrease E order) (g : List Char) : ¬ Relation.TransGen (Requires E) g g := by
  have key : ∀ a b, Relation.TransGen (Requires E) a b → rankIn order b < rankIn order a := by
    intro a b hab
    induction hab with
    | single hs => exact requires_rank E order hov h hs
    | tail _ hs ih => exact lt_trans (requires_rank E order hov h hs) ih
  intro hgg
  exact lt_irrefl _ (key g g hgg)

/-- Witness of `flat_layout`: the entry requires `a` and `b`, both require `c`; the
bundle is the banner and the contents of `c`, `a`, `b`. -/
theorem flat_layout_witness :
    (∃ t, newBundleLog flatEnv "/s/app.js".toList = .ret none t ∧
      newBundle flatEnv ⟨[], []⟩ "/s/app.js".toList
        = .ret none ⟨t.seen, banner ++ logBytes t.emitted⟩ ∧
      (∀ p ∈ t.emitted, contentOf flatEnv p.1 = some p.2) ∧
      (t.emitted.map Prod.fst).Nodup ∧
      (∀ g, g ∈ t.emitted.map Prod.fst
        ↔ Relation.TransGen (Requires flatEnv) "/s/app.js".toList g) ∧
      (∀ pre g post, t.emitted.map Prod.fst = pre ++ g :: post →
        ∀ h, Relation.TransGen (Requires flatEnv) g h → h ∈ pre) ∧
      t.emitted.map Prod.fst = postOrder flatEnv (fuelBound flatEnv) "/s/app.js".toList []) ∧
    newBundle flatEnv ⟨[], []⟩ "/s/app.js".toList
      = .ret none ⟨["b".toList, "c".toList, "a".toList],
          banner ++ "C;\n//= require c\nA;\n//= require c\nB;\n".toList⟩ :=
  ⟨flat_layout flatEnv ⟨[], []⟩ "/s/app.js".toList
    (fun _ _ _ hq n hn =>
      (by decide : ∀ n ∈ allLibs flatEnv, '/' ∉ n) n (requiredLibsOf_subset flatEnv hq hn))
    (fun g hg =>
      (by decide : ∀ f ∈ ["/s/app.js".toList, "/s/a.js".toList, "/s/b.js".toList,
          "/s/c.js".toList], contentOf flatEnv f ≠ none) g
        (reachable_mem flatEnv _ _ (by decide) (by decide) hg))
    (fun g _ => acyclic_of_ranks flatEnv
      ["/s/c.js".toList, "/s/a.js".toList, "/s/b.js".toList, "/s/app.js".toList] rfl
      (by unfold ranksDecrease; decide) g),
   by decide⟩

/-! ## What a successful bundle writes -/

theorem depFiles_eq (E : Env) (g : List Char) :
    depFiles E g = (namesOf E g).map (fun lib => join (dir g) (lib ++ jsExt)) := by
  unfold depFiles namesOf
  cases requiredLibsOf E g <;> rfl

theorem requires_of_name (E : Env) (g n : List Char) (h : n ∈ namesOf E g) :
    Requires E g (join (dir g) (n ++ jsExt)) := by
  show _ ∈ depFiles E g
  rw [depFiles_eq]
  exact List.mem_map.mpr ⟨n, h, rfl⟩

theorem handleLibsLog_covers (E : Env) (h : List Char → Trace → Outcome Trace)
    (hh : ∀ f t t', h f t = .ret none t' → CoversLibs E f (namesOf E f) t t')
    (g : List Char) :
    ∀ L t t', L ⊆ namesOf E g → handleLibsLog E h (dir g) L t = .ret none t' →
      CoversLibs E g L t t' := by
  intro L
  induction L with
  | nil =>
    intro t t' _ hr
    simp only [handleLibsLog, Outcome.ret.injEq, true_and] at hr
    subst hr
    exact ⟨[], by simp, fun _ hx => hx, by simp, by simp, fun x hx hn => absurd hx hn,
      by simp⟩
  | cons lib L ih =>
    intro t t' hsub hr
    have hsub' : L ⊆ namesOf E g := fun x hx => hsub (List.mem_cons_of_mem _ hx)
    have hlib : lib ∈ namesOf E g := hsub (List.mem_cons_self _ _)
    by_cases hs : lib ∈ t.seen
    · rw [handleLibsLog_seen E _ _ lib L t hs] at hr
      obtain ⟨new, he, hgrow, hL, hsound, hname, hclosed⟩ := ih t t' hsub' hr
      refine ⟨new, he, hgrow, ?_, hsound, hname, hclosed⟩
      intro n hn
      rcases List.mem_cons.mp hn with rfl | hn
      · exact hgrow _ hs
      · exact hL n hn
    · cases hc : h (join (dir g) (lib ++ jsExt)) ⟨lib :: t.seen, t.emitted⟩ with
      | fuelOut => rw [handleLibsLog_fuelOut E h _ lib L t hs hc] at hr; cases hr
      | ret e1 t1 =>
        cases e1 with
        | some x => rw [handleLibsLog_err E h _ lib L t hs x t1 hc] at hr; cases hr
        | none =>
          cases hcont : contentOf E (join (dir g) (lib ++ jsExt)) with
          | none => rw [handleLibsLog_missing E h _ lib L t hs t1 hc hcont] at hr; cases hr
          | some content =>
            rw [handleLibsLog_ok E h _ lib L t hs t1 content hc hcont] at hr
            obtain ⟨new1, he1, hgrow1, hL1, hsound1, hname1, hclosed1⟩ := hh _ _ _ hc
            obtain ⟨new2, he2, hgrow2, hL2, hsound2, hname2, hclosed2⟩ := ih _ t' hsub' hr
            simp only at he1 hgrow1 hname1 he2 hgrow2 hname2
            have hreq : Requires E g (join (dir g) (lib ++ jsExt)) :=
              requires_of_name E g lib hlib
            have hlib1 : lib ∈ t1.seen := hgrow1 lib (List.mem_cons_self _ _)
            refine ⟨new1 ++ (join (dir g) (lib ++ jsExt), content) :: new2, ?_, ?_, ?_, ?_,
              ?_, ?_⟩
            · rw [he2, he1]; simp
            · intro x hx
              exact hgrow2 x (hgrow1 x (List.mem_cons_of_mem _ hx))
            · intro n hn
              rcases List.mem_cons.mp hn with rfl | hn
              · exact hgrow2 _ hlib1
              · exact hL2 n hn
            · intro p hp
              rcases List.mem_append.mp hp with hp | hp
              · exact Relation.TransGen.head hreq (hsound1 p hp)
              · rcases List.mem_cons.mp hp with rfl | hp
                · exact Relation.TransGen.single hreq
                · exact hsound2 p hp
            · intro x hx hxt
              by_cases hx1 : x ∈ t1.seen
              · by_cases hx0 : x = lib
                · subst hx0
                  exact ⟨g, Or.inl rfl, hlib, by simp⟩
                · have hx0' : x ∉ lib :: t.seen := by
                    intro hm
                    rcases List.mem_cons.mp hm with e | hm
                    · exact hx0 e
                    · exact hxt hm
                  obtain ⟨g', hg', hxn, hw⟩ := hname1 x hx1 hx0'
                  refine ⟨g', Or.inr ?_, hxn, ?_⟩
                  · rcases hg' with rfl | hg'
                    · simp
                    · simp only [List.map_append, List.map_cons, List.mem_append,
                        List.mem_cons]
                      exact Or.inl hg'
                  · simp only [List.map_append, List.map_cons, List.mem_append, List.mem_cons]
                    exact Or.inl hw
              · obtain ⟨g', hg', hxn, hw⟩ := hname2 x hx hx1
                refine ⟨g', ?_, hxn, ?_⟩
                · rcases hg' with rfl | hg'
                  · exact Or.inl rfl
                  · right
                    simp only [List.map_append, List.map_cons, List.mem_append, List.mem_cons]
                    exact Or.inr (Or.inr hg')
                · simp only [List.map_append, List.map_cons, List.mem_append, List.mem_cons]
                  exact Or.inr (Or.inr hw)
            · intro g' hg' n hn
              simp only [List.map_append, List.map_cons, List.mem_append, List.mem_cons] at hg'
              rcases hg' with hg' | rfl | hg'
              · exact hgrow2 n (hclosed1 g' hg' n hn)
              · exact hgrow2 n (hL1 n hn)
              · exact hclosed2 g' hg' n hn

theorem handleFileLog_covers (E : Env) :
    ∀ fuel f t t', handleFileLog E fuel f t = .ret none t' →
      CoversLibs E f (namesOf E f) t t' := by
  intro fuel
  induction fuel with
  | zero => intro f t t' hr; simp [handleFileLog] at hr
  | succ fuel ih =>
    intro f t t' hr
    rw [handleFileLog] at hr
    cases hq : requiredLibsOf E f with
    | none => simp [hq] at hr
    | some libs =>
      simp only [hq] at hr
      have hn : namesOf E f = libs := by simp only [namesOf, hq]
      rw [hn]
      exact handleLibsLog_covers E _ ih f libs t t' (by rw [hn]; exact fun _ hx => hx) hr

/-- In a successful bundle every write is for a file the entry requires, directly or
through others, and carries the content of that file. -/
theorem newBundleLog_sound (E : Env) (entry : List Char) (t : Trace)
    (hr : newBundleLog E entry = .ret none t) :
    ∀ p ∈ t.emitted, contentOf E p.1 = some p.2 ∧ Relation.TransGen (Requires E) entry p.1 := by
  obtain ⟨new, he, _, _, hsound, _, _⟩ := handleFileLog_covers E _ _ _ _ hr
  simp only [List.nil_append] at he
  intro p hp
  exact ⟨handleFileLog_content E _ _ _ _ _ hr (by simp) p hp, hsound p (he ▸ hp)⟩

/-- In a successful bundle with unambiguous names every file the entry requires,
directly or through others, is written. -/
theorem newBundleLog_complete (E : Env) (entry : List Char) (t : Trace)
    (hr : newBundleLog E entry = .ret none t) (hu : Unambiguous E entry) :
    ∀ f, Relation.TransGen (Requires E) entry f → f ∈ t.emitted.map Prod.fst := by
  obtain ⟨new, he, _, hL, hsound, hname, hclosed⟩ := handleFileLog_covers E _ _ _ _ hr
  simp only [List.nil_append] at he
  subst he
  have hreach : ∀ g', (g' = entry ∨ g' ∈ t.emitted.map Prod.fst) →
      Relation.ReflTransGen (Requires E) entry g' := by
    intro g' hg'
    rcases hg' with rfl | hg'
    · exact Relation.ReflTransGen.refl
    · obtain ⟨p, hp, rfl⟩ := List.mem_map.mp hg'
      exact (hsound p hp).to_reflTransGen
  have key : ∀ g n, (g = entry ∨ g ∈ t.emitted.map Prod.fst) → n ∈ namesOf E g →
      n ∈ t.seen → join (dir g) (n ++ jsExt) ∈ t.emitted.map Prod.fst := by
    intro g n hg hn hseen
    obtain ⟨g', hg', hn', hw⟩ := hname n hseen (by simp)
    rw [hu g g' n (hreach g hg) (hreach g' hg') hn hn']
    exact hw
  intro f hf
  induction hf with
  | single hs =>
    have hs' : _ ∈ depFiles E entry := hs
    rw [depFiles_eq] at hs'
    obtain ⟨n, hn, rfl⟩ := List.mem_map.mp hs'
    exact key entry n (Or.inl rfl) hn (hL n hn)
  | @tail b c _ hs ih =>
    have hs' : _ ∈ depFiles E b := hs
    rw [depFiles_eq] at hs'
    obtain ⟨n, hn, rfl⟩ := List.mem_map.mp hs'
    exact key b n (Or.inr ih) hn (hclosed b ih n hn)

/-! ## The entry file and overrides -/

theorem unambiguous_of_check (E : Env) (entry : List Char) (S : List (List Char))
    (hentry : entry ∈ S) (hclosed : ∀ f ∈ S, ∀ g ∈ depFiles E f, g ∈ S)
    (hcheck : ∀ g ∈ S, ∀ g' ∈ S, ∀ n ∈ namesOf E g, n ∈ namesOf E g' →
      join (dir g) (n ++ jsExt) = join (dir g') (n ++ jsExt)) :
    Unambiguous E entry :=
  fun g g' n hg hg' hn hn' =>
    hcheck g (reachable_mem E entry S hentry hclosed hg) g'
      (reachable_mem E entry S hentry hclosed hg') n hn hn'

/-- C3, as the code has it: when `newBundle` succeeds, the buffer is the banner
followed by the logged writes; each write is the content (override or file) of a
module the entry requires, directly or through others; when equal directive names in
the files reached from the entry resolve to the same file, every module the entry
requires, directly or through others, is written; and no write is for the entry file
unless the entry is among its own requirements. -/
theorem newBundle_writes (E : Env) (j j' : JsBundler) (entry : List Char)
    (h : newBundle E j entry = .ret none j') :
    ∃ emitted, newBundleLog E entry = .ret none ⟨j'.seen, emitted⟩ ∧
      j'.buff = banner ++ logBytes emitted ∧
      (∀ p ∈ emitted, contentOf E p.1 = some p.2 ∧
        Relation.TransGen (Requires E) entry p.1) ∧
      (Unambiguous E entry →
        ∀ f, Relation.TransGen (Requires E) entry f → f ∈ emitted.map Prod.fst) ∧
      (¬ Relation.TransGen (Requires E) entry entry → ∀ p ∈ emitted, p.1 ≠ entry) := by
  rw [newBundle_toBundler] at h
  cases hr : newBundleLog E entry with
  | fuelOut => rw [hr] at h; cases h
  | ret err t =>
    rw [hr] at h
    simp only [Outcome.toBundler, Outcome.ret.injEq] at h
    obtain ⟨rfl, rfl⟩ := h
    have hsound := newBundleLog_sound E entry t hr
    refine ⟨t.emitted, rfl, rfl, hsound, ?_, ?_⟩
    · exact fun hu => newBundleLog_complete E entry t hr hu
    · intro hno p hp hpe
      exact hno (hpe ▸ (hsound p hp).2)

/-- Witness of `newBundle_writes`: the chain `app.js`, `a`, `b`, where names are
unambiguous; the buffer is the banner, the content of `b` and the content of `a`. -/
theorem newBundle_writes_witness :
    (∃ emitted, newBundleLog chainEnv "/s/app.js".toList
        = .ret none ⟨["b".toList, "a".toList], emitted⟩ ∧
      (banner ++ "B;\n//= require b\nA;\n".toList) = banner ++ logBytes emitted ∧
      (∀ p ∈ emitted, contentOf chainEnv p.1 = some p.2 ∧
        Relation.TransGen (Requires chainEnv) "/s/app.js".toList p.1) ∧
      (Unambiguous chainEnv "/s/app.js".toList →
        ∀ f, Relation.TransGen (Requires chainEnv) "/s/app.js".toList f →
          f ∈ emitted.map Prod.fst) ∧
      (¬ Relation.TransGen (Requires chainEnv) "/s/app.js".toList "/s/app.js".toList →
        ∀ p ∈ emitted, p.1 ≠ "/s/app.js".toList)) ∧
    Unambiguous chainEnv "/s/app.js".toList ∧
    ¬ Relation.TransGen (Requires chainEnv) "/s/app.js".toList "/s/app.js".toList :=
  ⟨newBundle_writes chainEnv ⟨[], []⟩
      ⟨["b".toList, "a".toList], banner ++ "B;\n//= require b\nA;\n".toList⟩
      "/s/app.js".toList (by decide),
   unambiguous_of_check chainEnv _
      ["/s/app.js".toList, "/s/a.js".toList, "/s/b.js".toList]
      (by decide) (by decide) (by decide),
   acyclic_of_ranks chainEnv ["/s/b.js".toList, "/s/a.js".toList, "/s/app.js".toList] rfl
      (by unfold ranksDecrease; decide) _⟩

/-- C5, as the code has it: let two environments have the same `src` and the same
override store, and let their file systems differ only at files for which the
override store has an entry.  Then `newBundle` returns the same over both.  When a
required module with an override is resolved, the requires followed are those of the
override's text and, once they are resolved, the bytes appended are the override's
content; handling any file with an override, the entry included, follows the requires
of the override's text.  In a successful bundle every write for a file with an
override is the override's content, and with unambiguous names every required module
with an override is written with the override's content, and so are the modules the
override's text requires, also for an overridden entry. -/
theorem override_precedence (E E' : Env) (j : JsBundler) (entry : List Char)
    (hsrc : E'.src = E.src) (hovr : E'.overrides = E.overrides)
    (hagree : ∀ f, getOverrideIfFound E f = none → find E.files f = find E'.files f) :
    newBundle E j entry = newBundle E' j entry ∧
    (∀ fuel D lib libs j0 c j1, lib ∉ j0.seen →
      getOverrideIfFound E (join D (lib ++ jsExt)) = some c →
      handleLibs E (handleFile E fuel) (dir (join D (lib ++ jsExt))) (extractRequiredLibs c)
          ⟨lib :: j0.seen, j0.buff⟩ = .ret none j1 →
      handleLibs E (handleFile E (fuel + 1)) D (lib :: libs) j0
        = handleLibs E (handleFile E (fuel + 1)) D libs ⟨j1.seen, j1.buff ++ c⟩) ∧
    (∀ fuel f c j0, getOverrideIfFound E f = some c →
      handleFile E (fuel + 1) f j0
        = handleLibs E (handleFile E fuel) (dir f) (extractRequiredLibs c) j0) ∧
    (∀ err t f x c, newBundleLog E entry = .ret err t → (f, x) ∈ t.emitted →
      getOverrideIfFound E f = some c → x = c) ∧
    (∀ t, newBundleLog E entry = .ret none t → Unambiguous E entry →
      (∀ f c, Relation.TransGen (Requires E) entry f → getOverrideIfFound E f = some c →
        (f, c) ∈ t.emitted) ∧
      (∀ f c n, Relation.ReflTransGen (Requires E) entry f →
        getOverrideIfFound E f = some c → n ∈ extractRequiredLibs c →
        join (dir f) (n ++ jsExt) ∈ t.emitted.map Prod.fst)) := by
  have hov : ∀ f, getOverrideIfFound E' f = getOverrideIfFound E f := by
    intro f
    simp only [getOverrideIfFound, hsrc, hovr]
  have hq : ∀ f, requiredLibsOf E f = requiredLibsOf E' f := by
    intro f
    unfold requiredLibsOf
    rw [hov]
    cases ho : getOverrideIfFound E f with
    | some c => rfl
    | none => simp only [hagree f ho]
  have hc : ∀ f, contentOf E f = contentOf E' f := by
    intro f
    unfold contentOf
    rw [hov]
    cases ho : getOverrideIfFound E f with
    | some c => rfl
    | none => simp only [hagree f ho]
  have hfile : ∀ fuel f c j0, getOverrideIfFound E f = some c →
      handleFile E (fuel + 1) f j0
        = handleLibs E (handleFile E fuel) (dir f) (extractRequiredLibs c) j0 := by
    intro fuel f c j0 ho
    rw [handleFile]
    simp only [requiredLibsOf, ho]
  refine ⟨?_, ?_, hfile, ?_, ?_⟩
  · rw [newBundle_toBundler, newBundle_toBundler, newBundleLog_congr _ _ hq hc]
  · intro fuel D lib libs j0 c j1 hs ho hrun
    have hcont : contentOf E (join D (lib ++ jsExt)) = some c := by
      simp only [contentOf, ho]
    rw [handleLibs, if_neg hs]
    simp only [hfile fuel _ c _ ho, hrun, hcont]
  · intro err t f x c hr hmem ho
    have := handleFileLog_content _ _ _ _ _ _ hr (by simp) (f, x) hmem
    simp only [contentOf, ho, Option.some.injEq] at this
    exact this.symm
  · intro t hr hu
    have hcomplete := newBundleLog_complete E entry t hr hu
    have hsound := newBundleLog_sound E entry t hr
    constructor
    · intro f c hf ho
      obtain ⟨p, hp, hpf⟩ := List.mem_map.mp (hcomplete f hf)
      have hpc := (hsound p hp).1
      rw [hpf] at hpc
      simp only [contentOf, ho, Option.some.injEq] at hpc
      have : p = (f, c) := by
        cases p
        simp only at hpf hpc
        rw [hpf, ← hpc]
      rw [← this]; exact hp
    · intro f c n hf ho hn
      apply hcomplete
      refine Relation.TransGen.tail' hf (requires_of_name E f n ?_)
      simp only [namesOf, requiredLibsOf, ho]
      exact hn

/-- Witness of `override_precedence`: `a.js` has an override that requires `b`; one
file system holds an `a.js` that requires `zz`, the other holds no `a.js`.  The
buffer is the banner, the content of `b` and the override's content. -/
theorem override_precedence_witness :
    (newBundle overrideEnv ⟨[], []⟩ "/s/app.js".toList
        = newBundle overrideEnvNoFile ⟨[], []⟩ "/s/app.js".toList ∧
      (∀ fuel D lib libs j0 c j1, lib ∉ j0.seen →
        getOverrideIfFound overrideEnv (join D (lib ++ jsExt)) = some c →
        handleLibs overrideEnv (handleFile overrideEnv fuel) (dir (join D (lib ++ jsExt)))
            (extractRequiredLibs c) ⟨lib :: j0.seen, j0.buff⟩ = .ret none j1 →
        handleLibs overrideEnv (handleFile overrideEnv (fuel + 1)) D (lib :: libs) j0
          = handleLibs overrideEnv (handleFile overrideEnv (fuel + 1)) D libs
              ⟨j1.seen, j1.buff ++ c⟩) ∧
      (∀ fuel f c j0, getOverrideIfFound overrideEnv f = some c →
        handleFile overrideEnv (fuel + 1) f j0
          = handleLibs overrideEnv (handleFile overrideEnv fuel) (dir f)
              (extractRequiredLibs c) j0) ∧
      (∀ err t f x c, newBundleLog overrideEnv "/s/app.js".toList = .ret err t →
        (f, x) ∈ t.emitted → getOverrideIfFound overrideEnv f = some c → x = c) ∧
      (∀ t, newBundleLog overrideEnv "/s/app.js".toList = .ret none t →
        Unambiguous overrideEnv "/s/app.js".toList →
        (∀ f c, Relation.TransGen (Requires overrideEnv) "/s/app.js".toList f →
          getOverrideIfFound overrideEnv f = some c → (f, c) ∈ t.emitted) ∧
        (∀ f c n, Relation.ReflTransGen (Requires overrideEnv) "/s/app.js".toList f →
          getOverrideIfFound overrideEnv f = some c → n ∈ extractRequiredLibs c →
          join (dir f) (n ++ jsExt) ∈ t.emitted.map Prod.fst))) ∧
    Unambiguous overrideEnv "/s/app.js".toList ∧
    newBundleLog overrideEnv "/s/app.js".toList
      = .ret none ⟨["b".toList, "a".toList],
          [("/s/b.js".toList, "B;\n".toList),
           ("/s/a.js".toList, "//= require b\nOV;\n".toList)]⟩ ∧
    newBundle overrideEnv ⟨[], []⟩ "/s/app.js".toList
      = .ret none ⟨["b".toList, "a".toList], banner ++ "B;\n//= require b\nOV;\n".toList⟩ ∧
    getOverrideIfFound overrideEnv "/s/a.js".toList = some "//= require b\nOV;\n".toList :=
  ⟨override_precedence overrideEnv overrideEnvNoFile ⟨[], []⟩ "/s/app.js".toList rfl rfl
    (by
      intro f h
      by_cases hf : "/s/a.js".toList = f
      · subst hf
        exact absurd h (by decide)
      · simp only [overrideEnv, overrideEnvNoFile, find, if_neg hf]),
   unambiguous_of_check overrideEnv _
      ["/s/app.js".toList, "/s/a.js".toList, "/s/b.js".toList]
      (by decide) (by decide) (by decide),
   by decide, by decide, by decide⟩

/-- C5, as the spec has it, fails for an entry file with an override: the entry is
resolved and the requires of the override's text are followed (`b` is written), but
no bytes of the override are appended; the buffer is the banner and the content of
`b`. -/
theorem overridden_entry_not_written :
    getOverrideIfFound entryOverrideEnv "/s/app.js".toList
      = some "//= require b\nOV;\n".toList ∧
    newBundleLog entryOverrideEnv "/s/app.js".toList
      = .ret none ⟨["b".toList], [("/s/b.js".toList, "B;\n".toList)]⟩ ∧
    newBundle entryOverrideEnv ⟨[], []⟩ "/s/app.js".toList
      = .ret none ⟨["b".toList], banner ++ "B;\n".toList⟩ ∧
    banner ++ "B;\n".toList ≠ banner ++ "B;\n".toList ++ "//= require b\nOV;\n".toList := by
  decide

/-! ## Names seen in another directory, or under another name -/

/-- C1 at `collideEnv`: the bundle succeeds and writes `/s/x.js` and `/s/d/y.js`;
the file `/s/d/x.js`, which `/s/d/y.js` requires and which exists, is not written,
because its name `x` was seen when `/s/x.js` was required.  The requirement graph
is acyclic: no file requires itself, directly or through others. -/
theorem required_module_not_written :
    newBundleLog collideEnv "/s/app.js".toList
      = .ret none ⟨["d/y".toList, "x".toList],
          [("/s/x.js".toList, "X;\n".toList),
           ("/s/d/y.js".toList, "//= require x\nY;\n".toList)]⟩ ∧
    newBundle collideEnv ⟨[], []⟩ "/s/app.js".toList
      = .ret none ⟨["d/y".toList, "x".toList], banner ++ "X;\n//= require x\nY;\n".toList⟩ ∧
    Requires collideEnv "/s/d/y.js".toList "/s/d/x.js".toList ∧
    contentOf collideEnv "/s/d/x.js".toList = some "DX;\n".toList ∧
    (∀ g, ¬ Relation.TransGen (Requires collideEnv) g g) := by
  refine ⟨by decide, by decide, by unfold Requires; decide, by decide, ?_⟩
  exact acyclic_of_ranks collideEnv
    ["/s/x.js".toList, "/s/d/x.js".toList, "/s/d/y.js".toList, "/s/app.js".toList] rfl
    (by unfold ranksDecrease; decide)

/-- C2 at `aliasEnv`: the entry requires the module `a.js` as `a` and as `./a`;
both names resolve to `/s/a.js`, and its content is written twice. -/
theorem module_written_twice :
    newBundleLog aliasEnv "/s/app.js".toList
      = .ret none ⟨["./a".toList, "a".toList],
          [("/s/a.js".toList, "A;\n".toList), ("/s/a.js".toList, "A;\n".toList)]⟩ ∧
    newBundle aliasEnv ⟨[], []⟩ "/s/app.js".toList
      = .ret none ⟨["./a".toList, "a".toList], banner ++ "A;\nA;\n".toList⟩ ∧
    depFiles aliasEnv "/s/app.js".toList = ["/s/a.js".toList, "/s/a.js".toList] := by
  decide

/-- C6 at `missingEnv`: `/s/d/y.js`, reached from the entry, requires `x`, which
resolves to `/s/d/x.js`; that file is neither an override nor in the file system,
and `newBundle` returns no error. -/
theorem missing_module_skipped :
    newBundle missingEnv ⟨[], []⟩ "/s/app.js".toList
      = .ret none ⟨["d/y".toList, "x".toList], banner ++ "X;\n//= require x\nY;\n".toList⟩ ∧
    Requires missingEnv "/s/app.js".toList "/s/d/y.js".toList ∧
    Requires missingEnv "/s/d/y.js".toList "/s/d/x.js".toList ∧
    contentOf missingEnv "/s/d/x.js".toList = none := by
  unfold Requires
  decide

end Bundler
